import Mathlib

/-!
# url-collector: the crawl engine of `pkg/searchengine/searchengine.go`

A shallow embedding of `SearchEngine` (`formatResult`, `save`, `fetch`, `Search`,
`wait`) together with the library routines it calls, followed by the theorems
that settle the specification's claims about it.

Conventions.
* Go strings are modelled by `String` (sequences of code points).  UTF-8 is
  self-synchronising, so substring search and replacement on well-formed text
  agree with their byte-level Go counterparts.
* Go `(value, error)` results are modelled by `Except String _`.
* Channels are modelled by lists, oldest element first; a send appends.
-/

namespace searchengine

/-! ## Package `strings` -/

/-- Substring test on character lists: `sub` occurs somewhere in the first list. -/
def hasInfix : List Char → List Char → Bool
  | [], sub => sub.isEmpty
  | c :: cs, sub => sub.isPrefixOf (c :: cs) || hasInfix cs sub

/-- Go `strings.Contains`. -/
def Contains (s sub : String) : Bool := hasInfix s.data sub.data

/-- Left-to-right replacement of the non-overlapping occurrences of a non-empty
`old`; the counter is the number of characters of a matched occurrence that
remain to be skipped. -/
def replaceFrom (old new : List Char) : Nat → List Char → List Char
  | _, [] => []
  | skip + 1, _ :: cs => replaceFrom old new skip cs
  | 0, c :: cs =>
    if old.isPrefixOf (c :: cs) then new ++ replaceFrom old new (old.length - 1) cs
    else c :: replaceFrom old new 0 cs

/-- Go `strings.ReplaceAll`.  For an empty `old` Go inserts `new` before every
code point and at the end. -/
def ReplaceAll (s old new : String) : String :=
  if old.data.isEmpty then
    String.mk (new.data ++ (s.data.map (fun c => c :: new.data)).flatten)
  else String.mk (replaceFrom old.data new.data 0 s.data)

/-- Go `unicode.IsSpace`: the code points with the White_Space property. -/
def isSpace (c : Char) : Bool :=
  let n := c.toNat
  (9 ≤ n && n ≤ 13) || n == 32 || n == 0x85 || n == 0xA0 || n == 0x1680 ||
  (0x2000 ≤ n && n ≤ 0x200A) || n == 0x2028 || n == 0x2029 || n == 0x202F ||
  n == 0x205F || n == 0x3000

/-- Go `strings.TrimSpace`: leading and trailing white space removed. -/
def TrimSpace (s : String) : String :=
  String.mk ((s.data.dropWhile isSpace).reverse.dropWhile isSpace).reverse

/-- Go `strings.Cut` on character lists: the text before and after the first
occurrence of the separator character, and whether it occurs. -/
def cutAt (sep : Char) : List Char → List Char × List Char × Bool
  | [] => ([], [], false)
  | c :: cs =>
    if c = sep then ([], cs, true)
    else
      let r := cutAt sep cs
      (c :: r.1, r.2.1, r.2.2)

/-- Split at the last occurrence of the separator (Go `strings.LastIndex`):
`none` when it does not occur, else the text before and the text after it. -/
def cutLast (sep : Char) (s : List Char) : Option (List Char × List Char) :=
  let r := cutAt sep s.reverse
  if r.2.2 then some (r.2.1.reverse, r.1.reverse) else none

/-! ## Package `net/url`

A model of `url.Parse` and `(*URL).Query().Get` of the Go standard library,
following `parse`, `getScheme`, `parseAuthority`, `parseHost`, `unescape` and
`ParseQuery`.  Percent escapes are decoded one byte to one code point, which is
exact for ASCII; IPv6 zone identifiers are not treated separately. -/

/-- The fields of Go `url.URL` that the parser fills in. -/
structure URL where
  Scheme : String
  Opaque : String
  Host : String
  Path : String
  RawQuery : String
  deriving DecidableEq, Repr

/-- The escaping contexts of `net/url` that the model uses. -/
inductive EncodeMode
  | path | host | userPassword | queryComponent | fragment
  deriving DecidableEq, Repr

/-- Value of a hexadecimal digit (`unhex`), `none` for any other character. -/
def unhex (c : Char) : Option Nat :=
  let n := c.toNat
  if 48 ≤ n ∧ n ≤ 57 then some (n - 48)
  else if 97 ≤ n ∧ n ≤ 102 then some (n - 97 + 10)
  else if 65 ≤ n ∧ n ≤ 70 then some (n - 65 + 10)
  else none

/-- ASCII letter or digit. -/
def isAlnum (c : Char) : Bool :=
  let n := c.toNat
  (97 ≤ n && n ≤ 122) || (65 ≤ n && n ≤ 90) || (48 ≤ n && n ≤ 57)

/-- Go `shouldEscape` restricted to host mode: characters that may not appear
literally in a host. -/
def shouldEscapeHost (c : Char) : Bool :=
  if isAlnum c then false
  else if c ∈ ['!', '$', '&', '\'', '(', ')', '*', '+', ',', ';', '=', ':', '[', ']',
      '<', '>', '"'] then false
  else if c ∈ ['-', '_', '.', '~'] then false
  else true

/-- Go `unescape`: decode `%XX` (and `+` in a query component); an
incomplete or non-hexadecimal escape is an error, as is, in host mode, an
escape below `%80` other than `%25` or an ASCII character that a host may not
contain. -/
def unescape (mode : EncodeMode) : List Char → Except String (List Char)
  | [] => .ok []
  | '%' :: a :: b :: rest =>
    match unhex a, unhex b with
    | some x, some y =>
      if mode = .host ∧ x < 8 ∧ ¬ (a = '2' ∧ b = '5') then
        .error "invalid URL escape"
      else
        match unescape mode rest with
        | .ok r => .ok (Char.ofNat (16 * x + y) :: r)
        | .error e => .error e
    | _, _ => .error "invalid URL escape"
  | c :: rest =>
    if c = '%' then .error "invalid URL escape"
    else if mode = .host ∧ c.toNat < 128 ∧ shouldEscapeHost c then
      .error "invalid character in host name"
    else
      match unescape mode rest with
      | .ok r => .ok ((if mode = .queryComponent ∧ c = '+' then ' ' else c) :: r)
      | .error e => .error e

/-- Go `stringContainsCTLByte`. -/
def containsCTL (s : List Char) : Bool :=
  s.any (fun c => c.toNat < 32 || c.toNat == 127)

/-- Go `getScheme`, scanning with the number `i` of characters already read and
those characters in reverse: `(scheme, rest)`, or an error for a leading colon. -/
def getSchemeFrom (whole : List Char) : Nat → List Char → List Char →
    Except String (List Char × List Char)
  | _, _, [] => .ok ([], whole)
  | i, acc, c :: cs =>
    let n := c.toNat
    if (97 ≤ n ∧ n ≤ 122) ∨ (65 ≤ n ∧ n ≤ 90) then getSchemeFrom whole (i + 1) (c :: acc) cs
    else if (48 ≤ n ∧ n ≤ 57) ∨ c = '+' ∨ c = '-' ∨ c = '.' then
      if i = 0 then .ok ([], whole) else getSchemeFrom whole (i + 1) (c :: acc) cs
    else if c = ':' then
      if i = 0 then .error "missing protocol scheme" else .ok (acc.reverse, cs)
    else .ok ([], whole)

/-- Go `getScheme`. -/
def getScheme (rawURL : List Char) : Except String (List Char × List Char) :=
  getSchemeFrom rawURL 0 [] rawURL

/-- Go `validOptionalPort`: empty, or a colon followed by digits only. -/
def validOptionalPort : List Char → Bool
  | [] => true
  | c :: cs => c == ':' && cs.all (fun d => 48 ≤ d.toNat && d.toNat ≤ 57)

/-- Go `parseHost`. -/
def parseHost (host : List Char) : Except String (List Char) :=
  if ['['].isPrefixOf host then
    match cutLast ']' host with
    | none => .error "missing ']' in host"
    | some (_, colonPort) =>
      if validOptionalPort colonPort then unescape .host host
      else .error "invalid port after host"
  else
    match cutLast ':' host with
    | some (_, port) =>
      if validOptionalPort (':' :: port) then unescape .host host
      else .error "invalid port after host"
    | none => unescape .host host

/-- Go `validUserinfo`. -/
def validUserinfo (s : List Char) : Bool :=
  s.all (fun c => isAlnum c ||
    c ∈ ['-', '.', '_', ':', '~', '!', '$', '&', '\'', '(', ')', '*', '+', ',', ';', '=',
      '%', '@'])

/-- Go `parseAuthority`: the host of `[userinfo@]host[:port]`. -/
def parseAuthority (authority : List Char) : Except String (List Char) :=
  match cutLast '@' authority with
  | none => parseHost authority
  | some (userinfo, host) =>
    match parseHost host with
    | .error e => .error e
    | .ok h =>
      if ¬ validUserinfo userinfo then .error "net/url: invalid userinfo"
      else
        match unescape .userPassword userinfo with
        | .error e => .error e
        | .ok _ => .ok h

/-- Go `parse(rawURL, viaRequest = false)`: the URL without its fragment. -/
def parseNoFragment (rawURL : List Char) : Except String URL :=
  if containsCTL rawURL then .error "net/url: invalid control character in URL"
  else if rawURL = ['*'] then .ok ⟨"", "", "", "*", ""⟩
  else
    match getScheme rawURL with
    | .error e => .error e
    | .ok (scheme, rest0) =>
      let scheme := scheme.map Char.toLower
      let q := cutAt '?' rest0
      -- a lone trailing `?` sets ForceQuery and leaves RawQuery empty, as the cut does
      let rest := q.1
      let rawQuery := q.2.1
      if ¬ ['/'].isPrefixOf rest ∧ ¬ scheme.isEmpty then
        .ok ⟨String.mk scheme, String.mk rest, "", "", String.mk rawQuery⟩
      else if ¬ ['/'].isPrefixOf rest ∧ (cutAt '/' rest).1.contains ':' then
        .error "first path segment in URL cannot contain colon"
      else
        let split : Except String (List Char × List Char) :=
          if (¬ scheme.isEmpty ∨ ¬ ['/', '/', '/'].isPrefixOf rest) ∧
              ['/', '/'].isPrefixOf rest then
            let a := cutAt '/' (rest.drop 2)
            match parseAuthority a.1 with
            | .error e => .error e
            | .ok h => .ok (h, if a.2.2 then '/' :: a.2.1 else [])
          else .ok ([], rest)
        match split with
        | .error e => .error e
        | .ok (host, p) =>
          match unescape .path p with
          | .error e => .error e
          | .ok path =>
            .ok ⟨String.mk scheme, "", String.mk host, String.mk path, String.mk rawQuery⟩

/-- Go `url.Parse`: cut off `#fragment`, parse the rest, check the fragment's
escapes. -/
def Parse (rawURL : String) : Except String URL :=
  let f := cutAt '#' rawURL.data
  match parseNoFragment f.1 with
  | .error e => .error e
  | .ok u =>
    match unescape .fragment f.2.1 with
    | .error e => .error e
    | .ok _ => .ok u

/-- Split on a separator character (Go `strings.Split` with a one-byte
separator); the accumulator holds the current piece in reverse. -/
def splitOn (sep : Char) : List Char → List Char → List (List Char)
  | acc, [] => [acc.reverse]
  | acc, c :: cs => if c = sep then acc.reverse :: splitOn sep [] cs else splitOn sep (c :: acc) cs

/-- Go `ParseQuery` followed by `Values.Get`: the first value stored under
`key`, or the empty string.  Pairs that are empty, contain a semicolon or fail
to unescape are skipped, as `parseQuery` does. -/
def getFirst (key : List Char) : List (List Char) → List Char
  | [] => []
  | kv :: rest =>
    if kv.isEmpty ∨ kv.contains ';' then getFirst key rest
    else
      let c := cutAt '=' kv
      match unescape .queryComponent c.1, unescape .queryComponent c.2.1 with
      | .ok k, .ok v => if k = key then v else getFirst key rest
      | _, _ => getFirst key rest

/-- Go `u.Query().Get(key)`. -/
def QueryGet (u : URL) (key : String) : String :=
  String.mk (getFirst key.data (splitOn '&' [] u.RawQuery.data))

/-! ## Package `regexp`

The four patterns of the engine are concatenations of literals and greedy
`[^…]+` classes around one capture group.  For such patterns Go's
leftmost-first matching is backtracking with the longest repetition tried
first. -/

/-- Pieces of a pattern. -/
inductive Tok
  | lit (s : String)
  | notIn (excluded : List Char)
  | gopen
  | gclose
  deriving DecidableEq, Repr

/-- Greedy `[^…]+` against `inp`, of which the first `n` characters are
available to the class: try the continuation after `n`, `n - 1`, …, `1` of them. -/
def plusLoop {R : Type} (cont : List Char → List Char → Option R) (inG : Bool)
    (acc inp : List Char) : Nat → Option R
  | 0 => none
  | n + 1 =>
    match cont (if inG then (inp.take (n + 1)).reverse ++ acc else acc) (inp.drop (n + 1)) with
    | some r => some r
    | none => plusLoop cont inG acc inp n

/-- Match a pattern at the start of the input: the text of the capture group and
the input left after the match.  `inG` tells whether the capture group is open,
`acc` is its text so far, reversed. -/
def matchHere : List Tok → Bool → List Char → List Char → Option (List Char × List Char)
  | [], _, acc, inp => some (acc.reverse, inp)
  | Tok.gopen :: ts, _, acc, inp => matchHere ts true acc inp
  | Tok.gclose :: ts, _, acc, inp => matchHere ts false acc inp
  | Tok.lit s :: ts, inG, acc, inp =>
    if s.data.isPrefixOf inp then
      matchHere ts inG (if inG then s.data.reverse ++ acc else acc) (inp.drop s.data.length)
    else none
  | Tok.notIn ex :: ts, inG, acc, inp =>
    plusLoop (matchHere ts inG) inG acc inp (inp.takeWhile (fun c => !ex.contains c)).length

/-- Successive non-overlapping matches, left to right; the counter is the number
of characters of the last match still to be stepped over. -/
def findAllFrom (p : List Tok) : Nat → List Char → List String
  | _, [] => []
  | skip + 1, _ :: cs => findAllFrom p skip cs
  | 0, c :: cs =>
    match matchHere p false [] (c :: cs) with
    | some (cap, rest) => String.mk cap :: findAllFrom p (cs.length - rest.length) cs
    | none => findAllFrom p 0 cs

/-- Go `re.FindAllStringSubmatch(text, -1)`, keeping of each match its first
submatch `match[1]`, the only part the engine reads. -/
def FindAllStringSubmatch (re : List Tok) (text : String) : List String :=
  findAllFrom re 0 text.data

/-- The pattern `<a[^>]+href="(http[^>"]+)"[^>]+>` of `newSearchEngine`. -/
def atagRe : List Tok :=
  [.lit "<a", .notIn ['>'], .lit "href=\"", .gopen, .lit "http", .notIn ['>', '"'], .gclose,
   .lit "\"", .notIn ['>'], .lit ">"]

/-- The pattern `<a[^>]+href="(/search\?q=[^>]+)"[^>]+>` of `NewBing`. -/
def bingNextPageRe : List Tok :=
  [.lit "<a", .notIn ['>'], .lit "href=\"", .gopen, .lit "/search?q=", .notIn ['>'], .gclose,
   .lit "\"", .notIn ['>'], .lit ">"]

/-- The pattern `<a href="(/search\?q=[^>]+)" id="pnnext"[^>]+>` of `NewGoogle`
and `NewGoogleImage`. -/
def googleNextPageRe : List Tok :=
  [.lit "<a href=\"", .gopen, .lit "/search?q=", .notIn ['>'], .gclose,
   .lit "\" id=\"pnnext\"", .notIn ['>'], .lit ">"]

/-- The pattern `<a class="n" href="(/s\?wd=[^>]+)">下一页 &gt;</a>` of `NewBaidu`. -/
def baiduNextPageRe : List Tok :=
  [.lit "<a class=\"n\" href=\"", .gopen, .lit "/s?wd=", .notIn ['>'], .gclose,
   .lit "\">下一页 &gt;</a>"]

/-! ## The engine: data -/

/-- Modelled from the spec: the type `SearchResultJson` is declared outside
`searchengine.go`; it is the Extracted Result, a (keyword, raw result URL)
pair, with the fields `Keyword` and `Url` that `save` and `fetch` read. -/
structure SearchResultJson where
  Keyword : String
  Url : String
  deriving DecidableEq, Repr

/-- The fields of `SearchEngineConfig` (with its embedded `BaseConfig`) that the
engine reads: the URL template, the pagination pattern, the user agent and
the output mode `Format`. -/
structure SearchEngineConfig where
  baseURL : String
  nextPageRe : List Tok
  userAgent : String
  Format : String

/-- The library and collaborator routines the engine calls, as parameters:
`url.Parse`, `u.Query().Get(key)`, `re.FindAllStringSubmatch(text, -1)` (first
submatches) and `filter.URLFilter.CheckRedirect`. -/
structure Deps where
  Parse : String → Except String URL
  Get : URL → String → String
  FindAll : List Tok → String → List String
  CheckRedirect : String → Except String String

/-- The routines as modelled in this file.  `CheckRedirect` lives in
`pkg/filter`, outside `searchengine.go`, and is a black box that returns the
resolved link or an error; the instance returns every link unchanged. -/
def goDeps : Deps where
  Parse := Parse
  Get := QueryGet
  FindAll := FindAllStringSubmatch
  CheckRedirect := fun link => .ok link

/-- What `request.Get` followed by `io.ReadAll(resp.Body)` hands the worker: the
status code, the `Location` header (empty when absent) and the body text or
the read error. -/
structure Response where
  StatusCode : Int
  Location : String
  Body : Except String String

/-- Calls the engine makes on its shared objects, in the order made. -/
inductive Event
  | dorkSend (target : String)
  | resultSend (r : SearchResultJson)
  | finishedAdd (keyword : String)
  | wgAdd
  | wgDone
  | addTotal
  | addFinished
  deriving DecidableEq, Repr

/-- The shared objects of a `SearchEngine`: the work queue `dorkCh`, the result
queue `resultCh` (items shown decoded; `fetch` marshals and `save` unmarshals
them), `FinishedDorkSet`, the counter of `dorkWg`, the two counters of the
progress service, and the history of calls. -/
structure State where
  dorkCh : List String
  resultCh : List SearchResultJson
  FinishedDorkSet : List String
  dorkWg : Int
  total : Nat
  finished : Nat
  log : List Event
  deriving DecidableEq, Repr

/-- A fresh engine (`newSearchEngine`): empty queues, empty set, counters at zero. -/
def State.init : State := ⟨[], [], [], 0, 0, 0, []⟩

/-- The statement `s.dorkCh <- target`. -/
def State.sendDork (s : State) (target : String) : State :=
  { s with dorkCh := s.dorkCh ++ [target], log := s.log ++ [Event.dorkSend target] }

/-- The statement `s.resultCh <- string(resultString)`. -/
def State.sendResult (s : State) (r : SearchResultJson) : State :=
  { s with resultCh := s.resultCh ++ [r], log := s.log ++ [Event.resultSend r] }

/-- How one pass through the body of the worker loop ends: `continue` (or
falling off the end of the body), `return`, or a run-time panic. -/
inductive Flow
  | loop
  | returned
  | panicked
  deriving DecidableEq, Repr

/-! ## `formatResult` and `save` -/

/-- The method `formatResult` for output mode `Format`. -/
def formatResult (d : Deps) (Format rawurl : String) : Except String String :=
  match d.Parse rawurl with
  | .error err => .error err
  | .ok URL =>
    if Format = "domain" then .ok URL.Host
    else if Format = "url" then .ok (ReplaceAll rawurl "&amp;" "&")
    else if Format = "protocol_domain" then .ok (URL.Scheme ++ "://" ++ URL.Host)
    else .ok rawurl

/-- The collaborator `filter.URLFilter` as the sink uses it: `IsDuplicate` may
update the filter's memory `σ`. -/
structure URLFilter (σ : Type) where
  IsDuplicate : σ → String → Except String Bool × σ
  IsInBlackList : σ → String → Bool

/-- The text `fmt.Fprintln(w, fmt.Sprintf("%s,\t%s", keyword, url))` writes. -/
def record (keyword url : String) : String := keyword ++ ",\t" ++ url ++ "\n"

/-- One pass through the loop of `save` for the decoded item `data`: the
filter's memory and the text written to `ResultWriter` so far, afterwards. -/
def saveItem {σ : Type} (d : Deps) (f : URLFilter σ) (Format : String)
    (st : σ × String) (data : SearchResultJson) : σ × String :=
  match formatResult d Format data.Url with
  | .error _ => st
  | .ok r =>
    match f.IsDuplicate st.1 r with
    | (.error _, m) => (m, st.2)
    | (.ok true, m) => (m, st.2)
    | (.ok false, m) =>
      if f.IsInBlackList m r then (m, st.2)
      else (m, st.2 ++ record data.Keyword data.Url)

/-- The loop of `save` over the items received from `resultCh`. -/
def save {σ : Type} (d : Deps) (f : URLFilter σ) (Format : String)
    (st : σ × String) (items : List SearchResultJson) : σ × String :=
  items.foldl (saveItem d f Format) st

/-- The sink accepts `data`: formatting succeeds with `r`, the dedup filter
answers not-duplicate without error, the blacklist filter does not match. -/
def Accepts {σ : Type} (d : Deps) (f : URLFilter σ) (Format : String) (m : σ)
    (data : SearchResultJson) (r : String) : Prop :=
  formatResult d Format data.Url = .ok r ∧
  (f.IsDuplicate m r).1 = .ok false ∧
  f.IsInBlackList (f.IsDuplicate m r).2 r = false

/-- Modelled from the spec: `filter.URLFilter` lives in `pkg/filter`, outside
`searchengine.go`; `IsDuplicate` tells whether the formatted result was seen
before, `IsInBlackList` whether it is blacklisted.  This instance remembers
what it has seen and has an empty blacklist. -/
def seenFilter : URLFilter (List String) where
  IsDuplicate := fun seen r => (.ok (seen.contains r), if seen.contains r then seen else r :: seen)
  IsInBlackList := fun _ _ => false

/-! ## `fetch`: one pass of a worker -/

/-- The keyword of a result (lines 178–184): parameter `wd`, or `q` when `wd` is
empty. -/
def resultKeyword (d : Deps) (queryCore : URL) : String :=
  if (d.Get queryCore "wd").length = 0 then d.Get queryCore "q" else d.Get queryCore "wd"

/-- The loop over the result anchors (lines 169–192).  The flag is set when the
loop panics: `url.Parse(dork)` failed, its error was discarded, and `Query` is
called on the nil URL. -/
def emitResults (d : Deps) (dork : String) : List String → State → State × Bool
  | [], s => (s, false)
  | link :: rest, s =>
    match d.CheckRedirect link with
    | .error _ => emitResults d dork rest s
    | .ok urlString =>
      match d.Parse dork with
      | .error _ => (s, true)
      | .ok queryCore =>
        emitResults d dork rest (s.sendResult ⟨resultKeyword d queryCore, urlString⟩)

/-- The absolute next-page links (lines 200–205). -/
def nextPageURLs (d : Deps) (cfg : SearchEngineConfig) (u : URL) (text : String) : List String :=
  (d.FindAll cfg.nextPageRe text).map
    (fun m => ReplaceAll (u.Scheme ++ "://" ++ u.Host ++ m) "&amp;" "&")

/-- The completion branch (lines 211–216): nothing when the keyword is already
in `FinishedDorkSet`; otherwise add it, call `dorkWg.Done()`, which panics
when the counter is already zero, then `progress.AddFinished()`. -/
def complete (keyword : String) (s : State) : State × Flow :=
  if keyword ∈ s.FinishedDorkSet then (s, Flow.loop)
  else
    let s1 := { s with FinishedDorkSet := keyword :: s.FinishedDorkSet,
                       dorkWg := s.dorkWg - 1,
                       log := s.log ++ [Event.finishedAdd keyword, Event.wgDone] }
    if s.dorkWg ≤ 0 then (s1, Flow.panicked)
    else ({ s1 with finished := s1.finished + 1, log := s1.log ++ [Event.addFinished] }, Flow.loop)

/-- Steps 3 of the loop body (lines 194–217), after the results were emitted. -/
def paginate (d : Deps) (cfg : SearchEngineConfig) (dork text : String) (s : State) :
    State × Flow :=
  match d.Parse dork with
  | .error _ => (s, Flow.returned)
  | .ok u =>
    let keyword := d.Get u "q"
    let next := nextPageURLs d cfg u text
    if next.length > 0 then (next.foldl State.sendDork s, Flow.loop)
    else complete keyword s

/-- The loop body from the body text on (lines 158–217). -/
def parsePage (d : Deps) (cfg : SearchEngineConfig) (dork text : String) (s : State) :
    State × Flow :=
  if Contains text "window.location.href" then (s.sendDork dork, Flow.loop)
  else if Contains text "网络不给力，请稍后重试" then (s.sendDork dork, Flow.loop)
  else
    match emitResults d dork (d.FindAll atagRe text) s with
    | (s1, true) => (s1, Flow.panicked)
    | (s1, false) => paginate d cfg dork text s1

/-- The redirect step (lines 144–146). -/
def redirect (r : Response) (s : State) : State :=
  if r.StatusCode > 300 ∧ r.StatusCode < 400 then s.sendDork r.Location else s

/-- One pass through the `case dork := <-s.dorkCh` arm of the worker loop (lines
133–217) for the target `dork`, already received, and the outcome `resp` of
`request.Get(dork, headers)`. -/
def process (d : Deps) (cfg : SearchEngineConfig) (dork : String)
    (resp : Except String Response) (s : State) : State × Flow :=
  match resp with
  | .error _ => (s, Flow.loop)
  | .ok r =>
    let s1 := redirect r s
    match r.Body with
    | .error _ => (s1, Flow.loop)
    | .ok text => parsePage d cfg dork text s1

/-- The worker step taken on a sequence of targets, one at a time: each target is
processed, by whichever worker receives it, with the response fetched for it. -/
def run (d : Deps) (cfg : SearchEngineConfig)
    (items : List (String × Except String Response)) (s : State) : State :=
  items.foldl (fun st it => (process d cfg it.1 it.2 st).1) s

/-! ## `Search` -/

/-- One pass through the scanner loop of `Search` (lines 235–241). -/
def submit (cfg : SearchEngineConfig) (s : State) (line : String) : State :=
  let keyword := TrimSpace line
  let req := ReplaceAll cfg.baseURL "$keyword" keyword
  let s1 := s.sendDork req
  { s1 with dorkWg := s1.dorkWg + 1, total := s1.total + 1,
            log := s1.log ++ [Event.wgAdd, Event.addTotal] }

/-- The scanner loop of `Search` over the lines `bufio.Scanner` yields. -/
def Search (cfg : SearchEngineConfig) (lines : List String) (s : State) : State :=
  lines.foldl (submit cfg) s

/-- Targets sent to the work queue, in order, according to a history. -/
def dorkSends : List Event → List String
  | [] => []
  | Event.dorkSend t :: es => t :: dorkSends es
  | _ :: es => dorkSends es

/-- Results sent to the result queue, in order, according to a history. -/
def resultSends : List Event → List SearchResultJson
  | [] => []
  | Event.resultSend r :: es => r :: resultSends es
  | _ :: es => resultSends es

/-- A single worker serving the work queue against a fixed web: receive the
oldest target, fetch it, run the loop body; at most `fuel` passes, stopping
early when the queue is empty or a pass does not return to the loop head. -/
def drain (d : Deps) (cfg : SearchEngineConfig) (web : String → Except String Response) :
    Nat → State → State × Flow
  | 0, s => (s, Flow.loop)
  | fuel + 1, s =>
    match s.dorkCh with
    | [] => (s, Flow.loop)
    | dork :: queue =>
      match process d cfg dork (web dork) { s with dorkCh := queue } with
      | (s1, Flow.loop) => drain d cfg web fuel s1
      | (s1, fl) => (s1, fl)

/-! ## The running engine, pass by pass

`Search`, the workers of `fetch`, the sink of `save` and `wait`, interleaved
with one pass of a loop body or one call of `wait` as a step; a blocking call
is a step that is enabled only when it can return.  Queues are taken
unbounded, so a send never blocks.  This is the view in which one worker at a
time executes a whole pass; the interleaving of the calls inside a pass is the
subject of the next section. -/

/-- Where a worker goroutine of `fetch` stands: at the `select`; holding a
received target; out of the loop before `fetcherWg.Done()`; after it; or gone
without it (the `return` of line 197, or a panic). -/
inductive Worker
  | idle
  | busy (dork : String)
  | leaving
  | stopped
  | gone
  deriving DecidableEq, Repr

/-- Where the goroutine of `Search` stands: in the scanner loop with the lines
still to read (with none left it is at `dorkWg.Wait()`, the first line of `wait`),
then before each later line of `wait`, then returned. -/
inductive Main
  | scan (lines : List String)
  | atCancel
  | atFetcherWait
  | atClose
  | atSaverWait
  | returned
  deriving DecidableEq, Repr

/-- The whole engine. -/
structure Sys where
  st : State
  main : Main
  workers : List Worker
  fetcherWg : Int
  saverWg : Int
  cancelled : Bool
  closed : Bool
  sinkExited : Bool
  received : List SearchResultJson
  crashed : Bool

/-- The steps of the engine; a step of a worker names the worker, a pass
through the loop body carries the response fetched. -/
inductive Label
  | submit
  | latchZero
  | cancel
  | workersDone
  | closeResult
  | sinkDone
  | receive (w : Nat)
  | pass (w : Nat) (resp : Except String Response)
  | seeCancel (w : Nat)
  | ack (w : Nat)
  | sinkTake
  | sinkExit

/-- The engine as `Search` leaves it after `s.save()` and `s.fetch()`: `n` workers
at their `select` with `fetcherWg` at `n`, the sink running with `saverWg` at one. -/
def Sys.init (n : Nat) (lines : List String) : Sys where
  st := State.init
  main := Main.scan lines
  workers := List.replicate n Worker.idle
  fetcherWg := n
  saverWg := 1
  cancelled := false
  closed := false
  sinkExited := false
  received := []
  crashed := false

/-- One step of the running engine, `none` when the step is not enabled.  After a
panic nothing runs. -/
def step (d : Deps) (cfg : SearchEngineConfig) (x : Sys) (l : Label) : Option Sys :=
  if x.crashed then none
  else
    match l with
    | Label.submit =>
      match x.main with
      | Main.scan (line :: rest) => some { x with st := submit cfg x.st line, main := Main.scan rest }
      | _ => none
    | Label.latchZero =>
      if x.main = Main.scan [] ∧ x.st.dorkWg = 0 then some { x with main := Main.atCancel } else none
    | Label.cancel =>
      if x.main = Main.atCancel then some { x with cancelled := true, main := Main.atFetcherWait }
      else none
    | Label.workersDone =>
      if x.main = Main.atFetcherWait ∧ x.fetcherWg = 0 then some { x with main := Main.atClose }
      else none
    | Label.closeResult =>
      if x.main = Main.atClose then some { x with closed := true, main := Main.atSaverWait }
      else none
    | Label.sinkDone =>
      if x.main = Main.atSaverWait ∧ x.saverWg = 0 then some { x with main := Main.returned }
      else none
    | Label.receive w =>
      match x.workers.get? w, x.st.dorkCh with
      | some Worker.idle, dork :: queue =>
        some { x with st := { x.st with dorkCh := queue },
                      workers := x.workers.set w (Worker.busy dork) }
      | _, _ => none
    | Label.pass w resp =>
      match x.workers.get? w with
      | some (Worker.busy dork) =>
        match process d cfg dork resp x.st with
        | (s1, Flow.loop) => some { x with st := s1, workers := x.workers.set w Worker.idle }
        | (s1, Flow.returned) => some { x with st := s1, workers := x.workers.set w Worker.gone }
        | (s1, Flow.panicked) =>
          some { x with st := s1, workers := x.workers.set w Worker.gone, crashed := true }
      | _ => none
    | Label.seeCancel w =>
      match x.workers.get? w with
      | some Worker.idle =>
        if x.cancelled then some { x with workers := x.workers.set w Worker.leaving } else none
      | _ => none
    | Label.ack w =>
      match x.workers.get? w with
      | some Worker.leaving =>
        some { x with workers := x.workers.set w Worker.stopped, fetcherWg := x.fetcherWg - 1 }
      | _ => none
    | Label.sinkTake =>
      match x.st.resultCh with
      | r :: queue =>
        if x.sinkExited then none
        else some { x with st := { x.st with resultCh := queue }, received := x.received ++ [r] }
      | [] => none
    | Label.sinkExit =>
      if x.st.resultCh = [] ∧ x.closed = true ∧ x.sinkExited = false then
        some { x with sinkExited := true, saverWg := x.saverWg - 1 }
      else none

/-- A run: the steps taken one after the other, `none` as soon as one is not
enabled. -/
def exec (d : Deps) (cfg : SearchEngineConfig) : Sys → List Label → Option Sys
  | x, [] => some x
  | x, l :: ls =>
    match step d cfg x l with
    | some y => exec d cfg y ls
    | none => none

/-- Number of `dorkWg.Done()` calls in a history. -/
def doneCalls (log : List Event) : Nat := log.count Event.wgDone

/-- Number of `dorkWg.Add(1)` calls in a history. -/
def addCalls (log : List Event) : Nat := log.count Event.wgAdd

/-- The body carries one of the two soft-failure markers tested on lines 160
and 164. -/
def softFailure (text : String) : Bool :=
  Contains text "window.location.href" || Contains text "网络不给力，请稍后重试"

/-- The response is a redirect in the sense of line 144. -/
def isRedirect (r : Response) : Bool := decide (r.StatusCode > 300 ∧ r.StatusCode < 400)

/-- The targets one page makes the worker send: the target itself on a soft
failure, else the next-page links when the target parses. -/
def pageSends (d : Deps) (cfg : SearchEngineConfig) (dork text : String) : List String :=
  if softFailure text then [dork]
  else
    match d.Parse dork with
    | .error _ => []
    | .ok u => nextPageURLs d cfg u text

/-! ## The running engine, call by call

The same goroutines with every call on a shared object as a step of its own:
each channel send, `FinishedDorkSet.Contains`, `FinishedDorkSet.Add`,
`dorkWg.Done()`, `progress.AddFinished()` of a worker, and the send,
`dorkWg.Add(1)` and `progress.AddTotal()` of `Search`.  Steps of different
goroutines interleave freely between any two calls.  The queues have the
capacities `newSearchEngine` gives them; a send on a full queue is not
enabled, a send on the closed result queue panics. -/

/-- The calls on shared objects a worker makes in one pass, in program order,
and the two ways a pass ends other than by reaching the head of the loop. -/
inductive Op
  | sendDork (target : String)
  | sendResult (r : SearchResultJson)
  | contains (keyword : String)
  | setAdd (keyword : String)
  | wgDone
  | addFinished
  | ret
  | nilDeref
  deriving DecidableEq, Repr

/-- The calls of the result loop (lines 169–192); the flag is set when the loop
panics on the nil URL of line 180. -/
def resultOps (d : Deps) (dork : String) : List String → List Op × Bool
  | [] => ([], false)
  | link :: rest =>
    match d.CheckRedirect link with
    | .error _ => resultOps d dork rest
    | .ok urlString =>
      match d.Parse dork with
      | .error _ => ([], true)
      | .ok queryCore =>
        (Op.sendResult ⟨resultKeyword d queryCore, urlString⟩ :: (resultOps d dork rest).1,
         (resultOps d dork rest).2)

/-- The calls of lines 194–217: `return` when the target does not parse, a send
per next-page link, or the completion branch, step by step. -/
def paginateOps (d : Deps) (cfg : SearchEngineConfig) (dork text : String) : List Op :=
  match d.Parse dork with
  | .error _ => [Op.ret]
  | .ok u =>
    let keyword := d.Get u "q"
    let next := nextPageURLs d cfg u text
    if next.length > 0 then next.map Op.sendDork
    else [Op.contains keyword, Op.setAdd keyword, Op.wgDone, Op.addFinished]

/-- The calls of lines 158–217 for a body that was read. -/
def pageOps (d : Deps) (cfg : SearchEngineConfig) (dork text : String) : List Op :=
  if Contains text "window.location.href" then [Op.sendDork dork]
  else if Contains text "网络不给力，请稍后重试" then [Op.sendDork dork]
  else
    match resultOps d dork (d.FindAll atagRe text) with
    | (ops, true) => ops ++ [Op.nilDeref]
    | (ops, false) => ops ++ paginateOps d cfg dork text

/-- The calls of one pass through the loop body (lines 139–217) for the target
`dork` and the outcome `resp` of `request.Get`. -/
def plan (d : Deps) (cfg : SearchEngineConfig) (dork : String)
    (resp : Except String Response) : List Op :=
  match resp with
  | .error _ => []
  | .ok r =>
    (if r.StatusCode > 300 ∧ r.StatusCode < 400 then [Op.sendDork r.Location] else []) ++
    match r.Body with
    | .error _ => []
    | .ok text => pageOps d cfg dork text

/-- What follows a call: the next call of the pass, the head of the loop
(`continue`), the end of the goroutine (`return`), or a panic. -/
inductive Ctl
  | next
  | loop
  | returned
  | panicked
  deriving DecidableEq, Repr

/-- The effect of one call on the shared objects.  `Add` on the set inserts the
keyword unless it is there; `Done` panics when the counter is already zero. -/
def perform (o : Op) (s : State) : State × Ctl :=
  match o with
  | Op.sendDork t => (s.sendDork t, Ctl.next)
  | Op.sendResult r => (s.sendResult r, Ctl.next)
  | Op.contains k => (s, if k ∈ s.FinishedDorkSet then Ctl.loop else Ctl.next)
  | Op.setAdd k =>
    ({ s with FinishedDorkSet := if k ∈ s.FinishedDorkSet then s.FinishedDorkSet
                                  else k :: s.FinishedDorkSet,
              log := s.log ++ [Event.finishedAdd k] }, Ctl.next)
  | Op.wgDone =>
    ({ s with dorkWg := s.dorkWg - 1, log := s.log ++ [Event.wgDone] },
     if s.dorkWg ≤ 0 then Ctl.panicked else Ctl.next)
  | Op.addFinished =>
    ({ s with finished := s.finished + 1, log := s.log ++ [Event.addFinished] }, Ctl.next)
  | Op.ret => (s, Ctl.returned)
  | Op.nilDeref => (s, Ctl.panicked)

/-- The calls of a pass performed one after the other with no other goroutine in
between. -/
def runOps : List Op → State → State × Flow
  | [], s => (s, Flow.loop)
  | o :: rest, s =>
    match perform o s with
    | (s1, Ctl.next) => runOps rest s1
    | (s1, Ctl.loop) => (s1, Flow.loop)
    | (s1, Ctl.returned) => (s1, Flow.returned)
    | (s1, Ctl.panicked) => (s1, Flow.panicked)

/-- Capacity of `dorkCh` (`make(chan string, 10240)`). -/
def dorkCap : Nat := 10240

/-- Capacity of `resultCh` (`make(chan string, 1024)`). -/
def resultCap : Nat := 1024

/-- The call is a send on the result queue. -/
def Op.isResultSend : Op → Bool
  | Op.sendResult _ => true
  | _ => false

/-- The call is a send on a queue that is full. -/
def Op.blocked (o : Op) (s : State) : Bool :=
  match o with
  | Op.sendDork _ => decide (dorkCap ≤ s.dorkCh.length)
  | Op.sendResult _ => decide (resultCap ≤ s.resultCh.length)
  | _ => false

/-- Where a worker goroutine stands: at the `select`; holding a received target,
before `request.Get`; inside the pass with the calls still to make; out of the
loop before `fetcherWg.Done()`; after it; or gone without it. -/
inductive WorkerPc
  | idle
  | busy (dork : String)
  | running (ops : List Op)
  | leaving
  | stopped
  | gone
  deriving DecidableEq, Repr

/-- Where the goroutine of `Search` stands: at the head of the scanner loop with
the lines still to read (with none left, at `dorkWg.Wait()`); after the send of
a line, before `dorkWg.Add(1)`; before `progress.AddTotal()`; then before each
later line of `wait`; then returned. -/
inductive MainPc
  | scan (lines : List String)
  | add (rest : List String)
  | total (rest : List String)
  | atCancel
  | atFetcherWait
  | atClose
  | atSaverWait
  | returned
  deriving DecidableEq, Repr

/-- Where the goroutine of `save` stands: in its `range` loop, out of the loop
before `saverWg.Done()`, or after it. -/
inductive SinkPc
  | ranging
  | leaving
  | done
  deriving DecidableEq, Repr

/-- The whole engine, call by call. -/
structure Engine where
  st : State
  main : MainPc
  workers : List WorkerPc
  sink : SinkPc
  fetcherWg : Int
  saverWg : Int
  cancelled : Bool
  closed : Bool
  received : List SearchResultJson
  crashed : Bool

/-- The steps of the engine, call by call. -/
inductive Action
  | send
  | add
  | addTotal
  | latchZero
  | cancel
  | workersDone
  | closeResult
  | sinkDone
  | receive (w : Nat)
  | fetch (w : Nat) (resp : Except String Response)
  | op (w : Nat)
  | seeCancel (w : Nat)
  | ack (w : Nat)
  | sinkTake
  | sinkLeave
  | sinkAck

/-- The engine as `Search` leaves it after `s.save()` and `s.fetch()`. -/
def Engine.init (n : Nat) (lines : List String) : Engine where
  st := State.init
  main := MainPc.scan lines
  workers := List.replicate n WorkerPc.idle
  sink := SinkPc.ranging
  fetcherWg := n
  saverWg := 1
  cancelled := false
  closed := false
  received := []
  crashed := false

/-- The worker after a call that is followed by the calls `ops`: back at the
`select` when none is left. -/
def afterOps : List Op → WorkerPc
  | [] => WorkerPc.idle
  | ops => WorkerPc.running ops

/-- One step of the engine, `none` when the step is not enabled.  After a panic
nothing runs. -/
def act (d : Deps) (cfg : SearchEngineConfig) (x : Engine) (a : Action) : Option Engine :=
  if x.crashed then none
  else
    match a with
    | Action.send =>
      match x.main with
      | MainPc.scan (line :: rest) =>
        if x.st.dorkCh.length < dorkCap then
          some { x with st := x.st.sendDork (ReplaceAll cfg.baseURL "$keyword" (TrimSpace line)),
                        main := MainPc.add rest }
        else none
      | _ => none
    | Action.add =>
      match x.main with
      | MainPc.add rest =>
        some { x with st := { x.st with dorkWg := x.st.dorkWg + 1,
                                        log := x.st.log ++ [Event.wgAdd] },
                      main := MainPc.total rest }
      | _ => none
    | Action.addTotal =>
      match x.main with
      | MainPc.total rest =>
        some { x with st := { x.st with total := x.st.total + 1,
                                        log := x.st.log ++ [Event.addTotal] },
                      main := MainPc.scan rest }
      | _ => none
    | Action.latchZero =>
      if x.main = MainPc.scan [] ∧ x.st.dorkWg = 0 then some { x with main := MainPc.atCancel }
      else none
    | Action.cancel =>
      if x.main = MainPc.atCancel then
        some { x with cancelled := true, main := MainPc.atFetcherWait }
      else none
    | Action.workersDone =>
      if x.main = MainPc.atFetcherWait ∧ x.fetcherWg = 0 then
        some { x with main := MainPc.atClose }
      else none
    | Action.closeResult =>
      if x.main = MainPc.atClose then some { x with closed := true, main := MainPc.atSaverWait }
      else none
    | Action.sinkDone =>
      if x.main = MainPc.atSaverWait ∧ x.saverWg = 0 then some { x with main := MainPc.returned }
      else none
    | Action.receive w =>
      match x.workers.get? w, x.st.dorkCh with
      | some WorkerPc.idle, dork :: queue =>
        some { x with st := { x.st with dorkCh := queue },
                      workers := x.workers.set w (WorkerPc.busy dork) }
      | _, _ => none
    | Action.fetch w resp =>
      match x.workers.get? w with
      | some (WorkerPc.busy dork) =>
        some { x with workers := x.workers.set w (afterOps (plan d cfg dork resp)) }
      | _ => none
    | Action.op w =>
      match x.workers.get? w with
      | some (WorkerPc.running (o :: rest)) =>
        if o.isResultSend = true ∧ x.closed = true then
          some { x with workers := x.workers.set w WorkerPc.gone, crashed := true }
        else if o.blocked x.st = true then none
        else
          match perform o x.st with
          | (s1, Ctl.next) => some { x with st := s1, workers := x.workers.set w (afterOps rest) }
          | (s1, Ctl.loop) => some { x with st := s1, workers := x.workers.set w WorkerPc.idle }
          | (s1, Ctl.returned) =>
            some { x with st := s1, workers := x.workers.set w WorkerPc.gone }
          | (s1, Ctl.panicked) =>
            some { x with st := s1, workers := x.workers.set w WorkerPc.gone, crashed := true }
      | _ => none
    | Action.seeCancel w =>
      match x.workers.get? w with
      | some WorkerPc.idle =>
        if x.cancelled then some { x with workers := x.workers.set w WorkerPc.leaving } else none
      | _ => none
    | Action.ack w =>
      match x.workers.get? w with
      | some WorkerPc.leaving =>
        some { x with workers := x.workers.set w WorkerPc.stopped, fetcherWg := x.fetcherWg - 1 }
      | _ => none
    | Action.sinkTake =>
      match x.sink, x.st.resultCh with
      | SinkPc.ranging, r :: queue =>
        some { x with st := { x.st with resultCh := queue }, received := x.received ++ [r] }
      | _, _ => none
    | Action.sinkLeave =>
      if x.sink = SinkPc.ranging ∧ x.st.resultCh = [] ∧ x.closed = true then
        some { x with sink := SinkPc.leaving }
      else none
    | Action.sinkAck =>
      if x.sink = SinkPc.leaving then
        some { x with sink := SinkPc.done, saverWg := x.saverWg - 1 }
      else none

/-- A run of the engine, call by call. -/
def runs (d : Deps) (cfg : SearchEngineConfig) : Engine → List Action → Option Engine
  | x, [] => some x
  | x, a :: as =>
    match act d cfg x a with
    | some y => runs d cfg y as
    | none => none

/-- The steps of `wait`. -/
def Action.isWait : Action → Bool
  | Action.latchZero => true
  | Action.cancel => true
  | Action.workersDone => true
  | Action.closeResult => true
  | Action.sinkDone => true
  | _ => false

/-- The steps of the worker goroutines. -/
def Action.isWorker : Action → Bool
  | Action.receive _ => true
  | Action.fetch _ _ => true
  | Action.op _ => true
  | Action.seeCancel _ => true
  | Action.ack _ => true
  | _ => false

/-- The steps of `wait` in the order `wait` lists them. -/
def waitOrder : List Action :=
  [Action.latchZero, Action.cancel, Action.workersDone, Action.closeResult, Action.sinkDone]

/-- How far `wait` has got. -/
def stage : MainPc → Nat
  | MainPc.scan _ => 0
  | MainPc.add _ => 0
  | MainPc.total _ => 0
  | MainPc.atCancel => 1
  | MainPc.atFetcherWait => 2
  | MainPc.atClose => 3
  | MainPc.atSaverWait => 4
  | MainPc.returned => 5

/-- Number of `dorkWg.Add(1)` calls `Search` has still to make. -/
def pendingAdds : MainPc → Nat
  | MainPc.scan lines => lines.length
  | MainPc.add rest => rest.length + 1
  | MainPc.total rest => rest.length
  | _ => 0

/-- Number of workers that have not called `fetcherWg.Done()`. -/
def notStopped (ws : List WorkerPc) : Nat := ws.countP (fun w => w != WorkerPc.stopped)

/-! ## Example configurations and inputs -/

/-- `NewBing()` with the template `https://www.bing.com/search?q=$keyword` as the
base URL the configuration supplies, and output mode `url`. -/
def bingCfg : SearchEngineConfig where
  baseURL := "https://www.bing.com/search?q=$keyword"
  nextPageRe := bingNextPageRe
  userAgent := "Mozilla/5.0 (iPhone; CPU iPhone OS 11_0 like Mac OS X) AppleWebKit/604.1.38 (KHTML, like Gecko) Version/11.0 Mobile/15A372 Safari/604.1"
  Format := "url"

/-- `NewBaidu(conf)` with the template `https://www.baidu.com/s?wd=$keyword`. -/
def baiduCfg : SearchEngineConfig where
  baseURL := "https://www.baidu.com/s?wd=$keyword"
  nextPageRe := baiduNextPageRe
  userAgent := "Mozilla/5.0 (Macintosh; Intel Mac OS X 10.15; rv:92.0) Gecko/20100101 Firefox/92.0"
  Format := "url"

/-- A successfully fetched page with status 200 and the given body. -/
def page (body : String) : Except String Response := .ok ⟨200, "", .ok body⟩

/-- A result page without anchors: no result link, no next-page link. -/
def lastPage : Except String Response := page "<html><body>no more results</body></html>"

/-- The result URL used as example in the specification. -/
def exampleURL : String := "http://example.com/a?x=1&amp;y=2"

/-- The run of a one-worker Baidu engine on the keywords `a` and `b` in which
each seed is fetched and turns out to be a last page. -/
def baiduRun : List Label :=
  [Label.submit, Label.submit, Label.receive 0, Label.pass 0 lastPage, Label.receive 0,
   Label.pass 0 lastPage]

/-- The engine at the end of `baiduRun`. -/
def baiduStuck : Sys where
  st := ⟨[], [], [""], 1, 2, 1,
    [Event.dorkSend "https://www.baidu.com/s?wd=a", Event.wgAdd, Event.addTotal,
     Event.dorkSend "https://www.baidu.com/s?wd=b", Event.wgAdd, Event.addTotal,
     Event.finishedAdd "", Event.wgDone, Event.addFinished]⟩
  main := Main.scan []
  workers := [Worker.idle]
  fetcherWg := 1
  saverWg := 1
  cancelled := false
  closed := false
  sinkExited := false
  received := []
  crashed := false

/-- A keyword line with a TAB inside: the seed built from it contains a control
character, which `url.Parse` rejects. -/
def tabLine : String := "a\tb"

/-- A Bing result page with one result anchor and no next-page link. -/
def resultPage : Except String Response := page "<a class=\"r\" href=\"http://r.com/1\" h=1>"

/-- A Bing result page with a next-page link for the keyword `a` and a link to a
related search for `c`; the pattern of `NewBing` matches both. -/
def relatedPage : Except String Response :=
  page ("<a class=\"sb\" href=\"/search?q=a&amp;first=11\" target=_self>2</a> " ++
    "<a class=\"rs\" href=\"/search?q=c\" target=_self>c</a>")

/-- A Bing result page with links to two further pages for the keyword `a`. -/
def twoPages : Except String Response :=
  page ("<a class=\"sb\" href=\"/search?q=a&amp;first=11\" target=_self>2</a> " ++
    "<a class=\"sb\" href=\"/search?q=a&amp;first=21\" target=_self>3</a>")

/-- A complete run of a one-worker Bing engine on the keyword `a`, whose first
page has one result and is the last one. -/
def completeRun : List Action :=
  [Action.send, Action.add, Action.addTotal, Action.receive 0, Action.fetch 0 resultPage,
   Action.op 0, Action.sinkTake, Action.op 0, Action.op 0, Action.op 0, Action.op 0,
   Action.latchZero, Action.cancel, Action.seeCancel 0, Action.ack 0, Action.workersDone,
   Action.closeResult, Action.sinkLeave, Action.sinkAck, Action.sinkDone]

/-- A run of a two-worker Bing engine on the keyword `a`: the first page links to
a second page and to a related search for `c`; worker 0 receives the second
page, worker 1 receives the related search, finds it a last page and
completes `c`; the latch is at zero and `wait` cancels. -/
def relatedRun : List Action :=
  [Action.send, Action.add, Action.addTotal, Action.receive 0, Action.fetch 0 relatedPage,
   Action.op 0, Action.op 0, Action.receive 0, Action.receive 1, Action.fetch 1 lastPage,
   Action.op 1, Action.op 1, Action.op 1, Action.op 1, Action.latchZero, Action.cancel]

/-- A run of a three-worker Bing engine on the keywords `a` and `b`: worker 2
holds the seed of `b`; workers 0 and 1 each reach a last page of `a`, both pass
the `Contains` test before either has added `a`, and both call `Done`. -/
def raceRun : List Action :=
  [Action.send, Action.add, Action.addTotal, Action.send, Action.add, Action.addTotal,
   Action.receive 0, Action.receive 2, Action.fetch 0 twoPages, Action.op 0, Action.op 0,
   Action.receive 0, Action.receive 1, Action.fetch 0 lastPage, Action.fetch 1 lastPage,
   Action.op 0, Action.op 1, Action.op 0, Action.op 1, Action.op 0, Action.op 1,
   Action.latchZero, Action.cancel]

/-! ## Notions used in the proofs -/

/-- The state after some results were sent. -/
def withResults (s : State) (rs : List SearchResultJson) : State :=
  { s with resultCh := s.resultCh ++ rs, log := s.log ++ rs.map Event.resultSend }

/-- The state after some targets were sent. -/
def withDorks (s : State) (ts : List String) : State :=
  { s with dorkCh := s.dorkCh ++ ts, log := s.log ++ ts.map Event.dorkSend }

/-- An event that is a send on one of the two queues. -/
def Event.isSend : Event → Bool
  | Event.dorkSend _ => true
  | Event.resultSend _ => true
  | _ => false

/-- The state `t` comes from `s` by sends only: set, counters and progress are
the same and the history grew by send events. -/
def Quiet (s t : State) : Prop :=
  t.FinishedDorkSet = s.FinishedDorkSet ∧ t.dorkWg = s.dorkWg ∧ t.total = s.total ∧
  t.finished = s.finished ∧ ∃ evs, t.log = s.log ++ evs ∧ ∀ e ∈ evs, e.isSend = true

/-- The finished set and the history agree: every keyword is in the set once at
most, and was added as often as it is in the set. -/
def Tracked (s : State) : Prop :=
  s.FinishedDorkSet.Nodup ∧
  (∀ k, s.log.count (Event.finishedAdd k) = s.FinishedDorkSet.count k) ∧
  doneCalls s.log = s.FinishedDorkSet.length ∧
  s.log.count Event.addFinished ≤ doneCalls s.log

/-- How far the goroutine of `Search` has got in `wait`. -/
def phase : Main → Nat
  | Main.scan _ => 0
  | Main.atCancel => 1
  | Main.atFetcherWait => 2
  | Main.atClose => 3
  | Main.atSaverWait => 4
  | Main.returned => 5

/-- Number of lines still to be read. -/
def remaining : Main → Nat
  | Main.scan lines => lines.length
  | _ => 0

/-- Number of workers that have not called `fetcherWg.Done()`. -/
def nonStopped (ws : List Worker) : Nat := ws.countP (fun w => w != Worker.stopped)

/-- The invariant of the running engine for an input of `total` lines. -/
structure Inv (total : Nat) (x : Sys) : Prop where
  wg : x.fetcherWg = (nonStopped x.workers : Int)
  late : 3 ≤ phase x.main → nonStopped x.workers = 0
  closed : x.closed = true → 4 ≤ phase x.main
  adds : addCalls x.st.log + remaining x.main = total
  bal : x.st.dorkWg + doneCalls x.st.log = addCalls x.st.log
  zero : 1 ≤ phase x.main → x.crashed = false → x.st.dorkWg = 0

/-- The result a call puts on the result queue, if any. -/
def Op.results : Op → List SearchResultJson
  | Op.sendResult r => [r]
  | _ => []

/-- The invariant of the engine, call by call, for an input of `total` lines. -/
structure Safe (total : Nat) (x : Engine) : Prop where
  wg : x.fetcherWg = (notStopped x.workers : Int)
  late : 3 ≤ stage x.main → notStopped x.workers = 0
  closed : x.closed = true → 4 ≤ stage x.main
  cancelled : x.cancelled = true → 2 ≤ stage x.main
  adds : addCalls x.st.log + pendingAdds x.main = total
  bal : x.st.dorkWg + doneCalls x.st.log = addCalls x.st.log
  zero : 1 ≤ stage x.main → x.crashed = false → x.st.dorkWg = 0
  sinkWg : x.saverWg = if x.sink = SinkPc.done then 0 else 1
  sinkOut : x.sink ≠ SinkPc.ranging → x.closed = true ∧ x.st.resultCh = []
  conserve : x.received ++ x.st.resultCh = resultSends x.st.log

/-! ## Lemmas on the queue operations -/

theorem dorkSends_append (a b : List Event) : dorkSends (a ++ b) = dorkSends a ++ dorkSends b := by
  induction a with
  | nil => rfl
  | cons e es ih => cases e <;> simp [dorkSends, ih]

theorem resultSends_append (a b : List Event) :
    resultSends (a ++ b) = resultSends a ++ resultSends b := by
  induction a with
  | nil => rfl
  | cons e es ih => cases e <;> simp [resultSends, ih]

/-! ## `formatResult` and `save` -/

/-- C8: for a raw URL that parses, `formatResult` returns the host in mode
`domain`, the raw string with every `&amp;` replaced by `&` in mode `url`, scheme
`://` host in mode `protocol_domain`, and the raw string in any other mode; for
a raw URL that does not parse it returns the error in every mode; for
`http://example.com/a?x=1&amp;y=2` the three modes give `example.com`,
`http://example.com/a?x=1&y=2` and `http://example.com`. -/
theorem formatResult_modes (d : Deps) (rawurl : String) :
    (∀ u, d.Parse rawurl = .ok u →
      formatResult d "domain" rawurl = .ok u.Host ∧
      formatResult d "url" rawurl = .ok (ReplaceAll rawurl "&amp;" "&") ∧
      formatResult d "protocol_domain" rawurl = .ok (u.Scheme ++ "://" ++ u.Host) ∧
      ∀ mode, mode ≠ "domain" → mode ≠ "url" → mode ≠ "protocol_domain" →
        formatResult d mode rawurl = .ok rawurl) ∧
    (∀ e, d.Parse rawurl = .error e → ∀ mode, formatResult d mode rawurl = .error e) ∧
    formatResult goDeps "domain" exampleURL = .ok "example.com" ∧
    formatResult goDeps "url" exampleURL = .ok "http://example.com/a?x=1&y=2" ∧
    formatResult goDeps "protocol_domain" exampleURL = .ok "http://example.com" := by
  refine ⟨?_, ?_, rfl, rfl, rfl⟩
  · intro u hu
    refine ⟨?_, ?_, ?_, ?_⟩
    · simp [formatResult, hu]
    · simp [formatResult, hu]
    · simp [formatResult, hu]
    · intro mode h1 h2 h3
      simp [formatResult, hu, h1, h2, h3]
  · intro e he mode
    simp [formatResult, he]

/-- The example URL parses in the model of `url.Parse`, and a URL with a blank in
its host does not. -/
theorem formatResult_modes_witness :
    formatResult goDeps "domain" exampleURL = .ok "example.com" ∧
    formatResult goDeps "raw" exampleURL = .ok exampleURL ∧
    formatResult goDeps "url" "http://exa mple.com/" = .error "invalid character in host name" :=
  ⟨((formatResult_modes goDeps exampleURL).1 ⟨"http", "", "example.com", "/a", "x=1&amp;y=2"⟩ rfl).1,
   ((formatResult_modes goDeps exampleURL).1 ⟨"http", "", "example.com", "/a", "x=1&amp;y=2"⟩
      rfl).2.2.2 "raw" (by decide) (by decide) (by decide),
   (formatResult_modes goDeps "http://exa mple.com/").2.1 _ rfl "url"⟩

/-- What `saveItem` does with an accepted item: the filter's memory is updated
and one record, built from the item's own fields, is appended. -/
theorem saveItem_accepted {σ : Type} (d : Deps) (f : URLFilter σ) (Format : String)
    (m : σ) (out : String) (data : SearchResultJson) (r : String)
    (h : Accepts d f Format m data r) :
    saveItem d f Format (m, out) data =
      ((f.IsDuplicate m r).2, out ++ record data.Keyword data.Url) := by
  obtain ⟨h1, h2, h3⟩ := h
  unfold saveItem
  rw [h1]
  simp only []
  rcases hd : f.IsDuplicate m r with ⟨a, m1⟩
  rw [hd] at h2 h3
  simp only [] at h2 h3
  subst h2
  simp [h3]

/-- C9, as the code has it: for every item the sink accepts, the text written is
the keyword, a comma, one TAB, the url, a newline. -/
theorem save_writes_keyword_comma_tab_url {σ : Type} (d : Deps) (f : URLFilter σ)
    (Format : String) (m : σ) (out : String) (data : SearchResultJson) (r : String)
    (h : Accepts d f Format m data r) :
    (saveItem d f Format (m, out) data).2 =
      out ++ (data.Keyword ++ ",\t" ++ data.Url ++ "\n") := by
  rw [saveItem_accepted d f Format m out data r h]
  rfl

/-- An accepted item and the record written for it. -/
theorem save_writes_keyword_comma_tab_url_witness :
    Accepts goDeps seenFilter "url" [] ⟨"k", "http://example.com/"⟩ "http://example.com/" ∧
    (saveItem goDeps seenFilter "url" ([], "") ⟨"k", "http://example.com/"⟩).2 =
      "" ++ ("k" ++ ",\t" ++ "http://example.com/" ++ "\n") :=
  ⟨⟨rfl, rfl, rfl⟩,
   save_writes_keyword_comma_tab_url goDeps seenFilter "url" [] "" ⟨"k", "http://example.com/"⟩
     "http://example.com/" ⟨rfl, rfl, rfl⟩⟩

/-- C9 fails as stated: the item (`k`, `http://example.com/`) is accepted and the
text written for it is `k,<TAB>http://example.com/`, with a comma before the
TAB, not `k<TAB>http://example.com/`. -/
theorem save_record_has_comma :
    Accepts goDeps seenFilter "url" [] ⟨"k", "http://example.com/"⟩ "http://example.com/" ∧
    (saveItem goDeps seenFilter "url" ([], "") ⟨"k", "http://example.com/"⟩).2 =
      "k,\thttp://example.com/\n" ∧
    (saveItem goDeps seenFilter "url" ([], "") ⟨"k", "http://example.com/"⟩).2 ≠
      "k\thttp://example.com/\n" :=
  ⟨⟨rfl, rfl, rfl⟩, rfl, by decide⟩

/-- C10, the code at the failing input: in mode `domain` the item (`k`,
`http://example.com/a`) is accepted, `formatResult` returns `example.com` and
that is what the filter is shown, but the url written is the raw
`http://example.com/a`. -/
theorem save_writes_raw_url :
    Accepts goDeps seenFilter "domain" [] ⟨"k", "http://example.com/a"⟩ "example.com" ∧
    formatResult goDeps "domain" "http://example.com/a" = .ok "example.com" ∧
    saveItem goDeps seenFilter "domain" ([], "") ⟨"k", "http://example.com/a"⟩ =
      (["example.com"], "k,\thttp://example.com/a\n") ∧
    (saveItem goDeps seenFilter "domain" ([], "") ⟨"k", "http://example.com/a"⟩).2 ≠
      record "k" "example.com" :=
  ⟨⟨rfl, rfl, rfl⟩, rfl, rfl, by decide⟩

/-! ## Frame lemmas for the worker -/

theorem dorkSends_map_dorkSend (ts : List String) : dorkSends (ts.map Event.dorkSend) = ts := by
  induction ts with
  | nil => rfl
  | cons t ts ih => simp [dorkSends, ih]

theorem dorkSends_map_resultSend (rs : List SearchResultJson) :
    dorkSends (rs.map Event.resultSend) = [] := by
  induction rs with
  | nil => rfl
  | cons t ts ih => simp [dorkSends, ih]

theorem resultSends_map_dorkSend (ts : List String) :
    resultSends (ts.map Event.dorkSend) = [] := by
  induction ts with
  | nil => rfl
  | cons t ts ih => simp [resultSends, ih]

theorem resultSends_map_resultSend (rs : List SearchResultJson) :
    resultSends (rs.map Event.resultSend) = rs := by
  induction rs with
  | nil => rfl
  | cons t ts ih => simp [resultSends, ih]

/-- Sending a list of targets appends them to the queue and to the history and
touches nothing else. -/
theorem foldl_sendDork (ts : List String) (s : State) :
    ts.foldl State.sendDork s =
      { s with dorkCh := s.dorkCh ++ ts, log := s.log ++ ts.map Event.dorkSend } := by
  induction ts generalizing s with
  | nil => simp
  | cons t ts ih => simp [ih, State.sendDork]

/-- The result loop only sends results: the state afterwards is the state before
with some results appended to `resultCh` and to the history. -/
theorem emitResults_frame (d : Deps) (dork : String) (links : List String) (s : State) :
    ∃ rs, (emitResults d dork links s).1 =
      { s with resultCh := s.resultCh ++ rs, log := s.log ++ rs.map Event.resultSend } := by
  induction links generalizing s with
  | nil => exact ⟨[], by simp [emitResults]⟩
  | cons link rest ih =>
    unfold emitResults
    split
    · exact ih s
    · split
      · exact ⟨[], by simp⟩
      · rename_i urlString _ _ queryCore _
        obtain ⟨rs, hrs⟩ := ih (s.sendResult ⟨resultKeyword d queryCore, urlString⟩)
        refine ⟨⟨resultKeyword d queryCore, urlString⟩ :: rs, ?_⟩
        rw [hrs]
        simp [State.sendResult]

/-- The result loop panics only when the target does not parse. -/
theorem emitResults_panic (d : Deps) (dork : String) (links : List String) (s : State)
    (h : (emitResults d dork links s).2 = true) : ∃ e, d.Parse dork = .error e := by
  induction links generalizing s with
  | nil => simp [emitResults] at h
  | cons link rest ih =>
    unfold emitResults at h
    split at h
    · exact ih s h
    · split at h
      · rename_i e _
        exact ⟨e, by assumption⟩
      · exact ih _ h

/-- The ways through the loop body from the body text on: a soft failure; a
target that does not parse; a page with next-page links; a terminal page. -/
theorem parsePage_cases (d : Deps) (cfg : SearchEngineConfig) (dork text : String) (s : State) :
    (softFailure text = true ∧ parsePage d cfg dork text s = (withDorks s [dork], Flow.loop)) ∨
    (softFailure text = false ∧ ∃ rs,
      ((∃ e, d.Parse dork = .error e) ∧
        (parsePage d cfg dork text s = (withResults s rs, Flow.returned) ∨
         parsePage d cfg dork text s = (withResults s rs, Flow.panicked))) ∨
      (∃ u, d.Parse dork = .ok u ∧ nextPageURLs d cfg u text ≠ [] ∧
        parsePage d cfg dork text s =
          (withDorks (withResults s rs) (nextPageURLs d cfg u text), Flow.loop)) ∨
      (∃ u, d.Parse dork = .ok u ∧ nextPageURLs d cfg u text = [] ∧
        parsePage d cfg dork text s = complete (d.Get u "q") (withResults s rs))) := by
  unfold parsePage softFailure
  by_cases h1 : Contains text "window.location.href" = true
  · left
    simp [h1, withDorks, State.sendDork]
  · by_cases h2 : Contains text "网络不给力，请稍后重试" = true
    · left
      simp [h1, h2, withDorks, State.sendDork]
    · right
      simp only [Bool.not_eq_true] at h1 h2
      simp only [h1, h2, Bool.false_eq_true, if_false, Bool.or_self, true_and]
      obtain ⟨rs, hrs⟩ := emitResults_frame d dork (d.FindAll atagRe text) s
      refine ⟨rs, ?_⟩
      rcases hem : emitResults d dork (d.FindAll atagRe text) s with ⟨s1, b⟩
      rw [hem] at hrs
      simp only at hrs
      subst hrs
      cases b with
      | true =>
        left
        have hp := emitResults_panic d dork (d.FindAll atagRe text) s (by rw [hem])
        exact ⟨hp, Or.inr rfl⟩
      | false =>
        simp only [paginate]
        rcases hp : d.Parse dork with e | u
        · left
          exact ⟨⟨e, rfl⟩, Or.inl rfl⟩
        · right
          by_cases hn : nextPageURLs d cfg u text = []
          · right
            refine ⟨u, rfl, hn, ?_⟩
            simp [hn, withResults]
          · left
            refine ⟨u, rfl, hn, ?_⟩
            have hl : (nextPageURLs d cfg u text).length > 0 := List.length_pos.mpr hn
            simp [hl, foldl_sendDork, withDorks, withResults]

/-- The targets sent while a page is handled are those of `pageSends`. -/
theorem parsePage_dorkSends (d : Deps) (cfg : SearchEngineConfig) (dork text : String)
    (s : State) :
    dorkSends (parsePage d cfg dork text s).1.log =
        dorkSends s.log ++ pageSends d cfg dork text ∧
      (parsePage d cfg dork text s).1.dorkCh = s.dorkCh ++ pageSends d cfg dork text := by
  rcases parsePage_cases d cfg dork text s with ⟨hs, h⟩ | ⟨hs, rs, h⟩
  · rw [h]
    simp [pageSends, hs, withDorks, dorkSends_append, dorkSends]
  · rcases h with ⟨⟨e, he⟩, h | h⟩ | ⟨u, hu, _, h⟩ | ⟨u, hu, hn, h⟩
    · rw [h]
      simp [pageSends, hs, he, withResults, dorkSends_append, dorkSends_map_resultSend]
    · rw [h]
      simp [pageSends, hs, he, withResults, dorkSends_append, dorkSends_map_resultSend]
    · rw [h]
      simp [pageSends, hs, hu, withResults, withDorks, dorkSends_append,
        dorkSends_map_resultSend, dorkSends_map_dorkSend]
    · rw [h]
      simp only [pageSends, hs, hu, hn, Bool.false_eq_true, if_false, List.append_nil]
      unfold complete
      split
      · simp [withResults, dorkSends_append, dorkSends_map_resultSend]
      · split <;>
          simp [withResults, dorkSends_append, dorkSends_map_resultSend, dorkSends]

/-! ## The redirect and soft-failure steps -/

/-- C4, as the code has it: when the fetch succeeds with a status code in 301..399
the worker sends the `Location` header verbatim, before anything else it sends
for that response, and then handles the body as for any other status: nothing
more is sent when the body cannot be read, the original target is sent again
when the body carries a soft-failure marker, and otherwise exactly the
next-page links of the page are sent. -/
theorem redirect_sends_location_first (d : Deps) (cfg : SearchEngineConfig) (dork : String)
    (r : Response) (s : State) (h : r.StatusCode > 300 ∧ r.StatusCode < 400) :
    ∃ more, dorkSends (process d cfg dork (.ok r) s).1.log =
        dorkSends s.log ++ r.Location :: more ∧
      (process d cfg dork (.ok r) s).1.dorkCh = s.dorkCh ++ r.Location :: more ∧
      (∀ e, r.Body = .error e → more = []) ∧
      (∀ text, r.Body = .ok text → softFailure text = true → more = [dork]) ∧
      (∀ text, r.Body = .ok text → softFailure text = false →
        (∀ e, d.Parse dork = .error e → more = []) ∧
        (∀ u, d.Parse dork = .ok u → more = nextPageURLs d cfg u text)) := by
  refine ⟨match r.Body with | .error _ => [] | .ok text => pageSends d cfg dork text, ?_⟩
  unfold process
  simp only [redirect, h, and_self, if_true]
  rcases hb : r.Body with e | text
  · simp [State.sendDork, dorkSends_append, dorkSends]
  · have hp := parsePage_dorkSends d cfg dork text (s.sendDork r.Location)
    simp only [hp.1, hp.2]
    refine ⟨by simp [State.sendDork, dorkSends_append, dorkSends], by simp [State.sendDork],
      by simp, ?_, ?_⟩
    · intro text1 ht hs
      cases ht
      simp [pageSends, hs]
    · intro text1 ht hs
      cases ht
      constructor
      · intro e he
        simp [pageSends, hs, he]
      · intro u hu
        simp [pageSends, hs, hu]

/-- A redirect answer to a Bing target with an ordinary last page as body. -/
theorem redirect_sends_location_first_witness :
    ∃ more, dorkSends (process goDeps bingCfg "https://www.bing.com/search?q=a"
          (.ok ⟨302, "https://cn.bing.com/search?q=a", .ok "<html></html>"⟩) State.init).1.log =
        dorkSends State.init.log ++ "https://cn.bing.com/search?q=a" :: more ∧
      (process goDeps bingCfg "https://www.bing.com/search?q=a"
          (.ok ⟨302, "https://cn.bing.com/search?q=a", .ok "<html></html>"⟩) State.init).1.dorkCh =
        State.init.dorkCh ++ "https://cn.bing.com/search?q=a" :: more ∧
      (∀ e, (Except.ok "<html></html>" : Except String String) = .error e → more = []) ∧
      (∀ text, (Except.ok "<html></html>" : Except String String) = .ok text →
        softFailure text = true → more = ["https://www.bing.com/search?q=a"]) ∧
      (∀ text, (Except.ok "<html></html>" : Except String String) = .ok text →
        softFailure text = false →
        (∀ e, goDeps.Parse "https://www.bing.com/search?q=a" = .error e → more = []) ∧
        (∀ u, goDeps.Parse "https://www.bing.com/search?q=a" = .ok u →
          more = nextPageURLs goDeps bingCfg u text)) :=
  redirect_sends_location_first goDeps bingCfg "https://www.bing.com/search?q=a"
    ⟨302, "https://cn.bing.com/search?q=a", .ok "<html></html>"⟩ State.init (by decide)

/-- C4 fails as stated: a 302 answer whose body carries the marker
`window.location.href` makes the worker send the `Location` value and then the
original target again. -/
theorem redirect_with_marker_resends_target :
    (process goDeps bingCfg "https://www.bing.com/search?q=a"
      (.ok ⟨302, "https://cn.bing.com/search?q=a",
        .ok "<script>window.location.href = \"/verify\"</script>"⟩) State.init).1.dorkCh =
      ["https://cn.bing.com/search?q=a", "https://www.bing.com/search?q=a"] ∧
    "https://www.bing.com/search?q=a" ∈
      dorkSends (process goDeps bingCfg "https://www.bing.com/search?q=a"
        (.ok ⟨302, "https://cn.bing.com/search?q=a",
          .ok "<script>window.location.href = \"/verify\"</script>"⟩) State.init).1.log :=
  ⟨rfl, by decide⟩

/-- C5: when the body was read and carries a soft-failure marker, the pass ends
after sending the target itself, unchanged: the worker goes back to the head of
its loop, the queue holds the target as its newest entry (after the `Location`
value when the status is a redirect), no result is sent, and the finished set,
the counter of `dorkWg` and the progress counters are as before. -/
theorem soft_failure_resends_same_target (d : Deps) (cfg : SearchEngineConfig) (dork : String)
    (r : Response) (text : String) (s : State)
    (hb : r.Body = .ok text) (hm : softFailure text = true) :
    (process d cfg dork (.ok r) s).2 = Flow.loop ∧
    (process d cfg dork (.ok r) s).1.dorkCh =
      s.dorkCh ++ (if isRedirect r then [r.Location] else []) ++ [dork] ∧
    dorkSends (process d cfg dork (.ok r) s).1.log =
      dorkSends s.log ++ (if isRedirect r then [r.Location] else []) ++ [dork] ∧
    (process d cfg dork (.ok r) s).1.resultCh = s.resultCh ∧
    resultSends (process d cfg dork (.ok r) s).1.log = resultSends s.log ∧
    (process d cfg dork (.ok r) s).1.FinishedDorkSet = s.FinishedDorkSet ∧
    (process d cfg dork (.ok r) s).1.dorkWg = s.dorkWg ∧
    doneCalls (process d cfg dork (.ok r) s).1.log = doneCalls s.log ∧
    (process d cfg dork (.ok r) s).1.finished = s.finished := by
  have hp : process d cfg dork (.ok r) s = (withDorks (redirect r s) [dork], Flow.loop) := by
    unfold process
    simp only [hb]
    rcases parsePage_cases d cfg dork text (redirect r s) with ⟨_, h⟩ | ⟨hs, _⟩
    · exact h
    · rw [hm] at hs
      cases hs
  rw [hp]
  by_cases hr : r.StatusCode > 300 ∧ r.StatusCode < 400
  · simp [withDorks, redirect, isRedirect, hr, State.sendDork, dorkSends_append, dorkSends,
      resultSends_append, resultSends, doneCalls]
  · simp [withDorks, redirect, isRedirect, hr, dorkSends_append, dorkSends,
      resultSends_append, resultSends, doneCalls]

/-- A rate-limit page served for a Baidu target. -/
theorem soft_failure_resends_same_target_witness :
    softFailure "<html>网络不给力，请稍后重试</html>" = true ∧
    (process goDeps baiduCfg "https://www.baidu.com/s?wd=a"
      (page "<html>网络不给力，请稍后重试</html>") State.init).1.dorkCh =
      [] ++ [] ++ ["https://www.baidu.com/s?wd=a"] :=
  ⟨by decide,
   (soft_failure_resends_same_target goDeps baiduCfg "https://www.baidu.com/s?wd=a"
      ⟨200, "", .ok "<html>网络不给力，请稍后重试</html>"⟩ "<html>网络不给力，请稍后重试</html>"
      State.init rfl (by decide)).2.1⟩

/-! ## `Search` -/

/-- The state after one more line was read. -/
theorem Search_append (cfg : SearchEngineConfig) (lines : List String) (line : String)
    (s : State) : Search cfg (lines ++ [line]) s = submit cfg (Search cfg lines s) line := by
  simp [Search]

/-- C6, as the code has it: for every line of the keyword input, empty after
trimming or not, `Search` sends one seed, the template with `$keyword` replaced
by the trimmed line, and increments `dorkWg` and the progress total once; so the
number of seeds sent and the number of `Add(1)` calls both equal the number of
lines. -/
theorem Search_submits_every_line (cfg : SearchEngineConfig) (lines : List String) (s : State) :
    (Search cfg lines s).dorkCh =
      s.dorkCh ++ lines.map (fun line => ReplaceAll cfg.baseURL "$keyword" (TrimSpace line)) ∧
    dorkSends (Search cfg lines s).log =
      dorkSends s.log ++
        lines.map (fun line => ReplaceAll cfg.baseURL "$keyword" (TrimSpace line)) ∧
    addCalls (Search cfg lines s).log = addCalls s.log + lines.length ∧
    (Search cfg lines s).dorkWg = s.dorkWg + lines.length ∧
    (Search cfg lines s).total = s.total + lines.length := by
  induction lines generalizing s with
  | nil => simp [Search]
  | cons line rest ih =>
    have h := ih (submit cfg s line)
    have hs : Search cfg (line :: rest) s = Search cfg rest (submit cfg s line) := rfl
    rw [hs]
    obtain ⟨h1, h2, h3, h4, h5⟩ := h
    refine ⟨?_, ?_, ?_, ?_, ?_⟩
    · rw [h1]
      simp [submit, State.sendDork]
    · rw [h2]
      simp [submit, State.sendDork, dorkSends_append, dorkSends]
    · rw [h3]
      simp [submit, State.sendDork, addCalls, List.count_cons]
      omega
    · rw [h4]
      simp [submit, State.sendDork]
      omega
    · rw [h5]
      simp [submit, State.sendDork]
      omega

/-- C6 fails as stated: for an empty line and a line of blanks `Search` sends two
seeds with an empty keyword and counts two outstanding keywords, although no
line is non-empty after trimming. -/
theorem Search_does_not_skip_blank_lines :
    (Search bingCfg ["", "   "] State.init).dorkCh =
      ["https://www.bing.com/search?q=", "https://www.bing.com/search?q="] ∧
    (Search bingCfg ["", "   "] State.init).dorkWg = 2 ∧
    addCalls (Search bingCfg ["", "   "] State.init).log = 2 ∧
    (Search bingCfg ["", "   "] State.init).total = 2 ∧
    (["", "   "].filter (fun line => TrimSpace line != "")).length = 0 :=
  ⟨rfl, rfl, rfl, rfl, rfl⟩

/-! ## What one pass can change -/

theorem Quiet.refl (s : State) : Quiet s s :=
  ⟨rfl, rfl, rfl, rfl, [], by simp, by simp⟩

theorem Quiet.trans {s t u : State} (h1 : Quiet s t) (h2 : Quiet t u) : Quiet s u := by
  obtain ⟨a1, a2, a3, a4, e1, a5, a6⟩ := h1
  obtain ⟨b1, b2, b3, b4, e2, b5, b6⟩ := h2
  refine ⟨b1.trans a1, b2.trans a2, b3.trans a3, b4.trans a4, e1 ++ e2, ?_, ?_⟩
  · rw [b5, a5, List.append_assoc]
  · intro e he
    rcases List.mem_append.mp he with h | h
    · exact a6 e h
    · exact b6 e h

theorem quiet_withDorks (s : State) (ts : List String) : Quiet s (withDorks s ts) := by
  refine ⟨rfl, rfl, rfl, rfl, ts.map Event.dorkSend, rfl, ?_⟩
  intro e he
  obtain ⟨t, _, rfl⟩ := List.mem_map.mp he
  rfl

theorem quiet_withResults (s : State) (rs : List SearchResultJson) :
    Quiet s (withResults s rs) := by
  refine ⟨rfl, rfl, rfl, rfl, rs.map Event.resultSend, rfl, ?_⟩
  intro e he
  obtain ⟨t, _, rfl⟩ := List.mem_map.mp he
  rfl

theorem quiet_redirect (r : Response) (s : State) : Quiet s (redirect r s) := by
  unfold redirect
  split
  · exact quiet_withDorks s [r.Location]
  · exact Quiet.refl s

/-- Send events are none of the events that are counted. -/
theorem count_sends (evs : List Event) (h : ∀ e ∈ evs, e.isSend = true) (a : Event)
    (ha : a.isSend = false) : evs.count a = 0 := by
  rw [List.count_eq_zero]
  intro hmem
  rw [h a hmem] at ha
  cases ha

theorem Quiet.count {s t : State} (h : Quiet s t) (a : Event) (ha : a.isSend = false) :
    t.log.count a = s.log.count a := by
  obtain ⟨_, _, _, _, evs, h5, h6⟩ := h
  rw [h5, List.count_append, count_sends evs h6 a ha, Nat.add_zero]

/-- Every pass is a sequence of sends, possibly followed by the completion
branch for some keyword. -/
theorem process_shape (d : Deps) (cfg : SearchEngineConfig) (dork : String)
    (resp : Except String Response) (s : State) :
    ∃ s1, Quiet s s1 ∧
      ((process d cfg dork resp s).1 = s1 ∨
       ∃ k, process d cfg dork resp s = complete k s1) := by
  unfold process
  rcases resp with e | r
  · exact ⟨s, Quiet.refl s, Or.inl rfl⟩
  · simp only
    rcases hb : r.Body with e | text
    · exact ⟨redirect r s, quiet_redirect r s, Or.inl rfl⟩
    · simp only
      have hq := quiet_redirect r s
      rcases parsePage_cases d cfg dork text (redirect r s) with ⟨_, h⟩ | ⟨_, rs, h⟩
      · exact ⟨_, hq.trans (quiet_withDorks _ [dork]), Or.inl (by rw [h])⟩
      · rcases h with ⟨_, h | h⟩ | ⟨u, _, _, h⟩ | ⟨u, _, _, h⟩
        · exact ⟨_, hq.trans (quiet_withResults _ rs), Or.inl (by rw [h])⟩
        · exact ⟨_, hq.trans (quiet_withResults _ rs), Or.inl (by rw [h])⟩
        · exact ⟨_, (hq.trans (quiet_withResults _ rs)).trans (quiet_withDorks _ _),
            Or.inl (by rw [h])⟩
        · exact ⟨_, hq.trans (quiet_withResults _ rs), Or.inr ⟨d.Get u "q", h⟩⟩

theorem Tracked.after_quiet {s t : State} (h : Tracked s) (hq : Quiet s t) : Tracked t := by
  obtain ⟨h1, h2, h3, h4⟩ := h
  have hf := hq.1
  refine ⟨by rw [hf]; exact h1, ?_, ?_, ?_⟩
  · intro k
    rw [hq.count (Event.finishedAdd k) rfl, hf]
    exact h2 k
  · unfold doneCalls
    rw [hq.count Event.wgDone rfl, hf]
    exact h3
  · unfold doneCalls
    rw [hq.count Event.wgDone rfl, hq.count Event.addFinished rfl]
    exact h4

theorem Tracked.after_complete {s : State} (h : Tracked s) (k : String) :
    Tracked (complete k s).1 := by
  obtain ⟨h1, h2, h3, h4⟩ := h
  unfold doneCalls at h3 h4
  unfold complete
  split
  · exact ⟨h1, h2, h3, h4⟩
  · rename_i hk
    split
    · refine ⟨List.nodup_cons.mpr ⟨hk, h1⟩, ?_, ?_, ?_⟩
      · intro j
        simp only [List.count_append, h2 j, List.count_cons, List.count_nil]
        by_cases hj : k = j
        · subst hj
          simp
        · have hj2 : ¬ Event.finishedAdd k = Event.finishedAdd j := by
            intro hc
            exact hj (Event.finishedAdd.inj hc)
          simp [hj, hj2]
      · simp [doneCalls, List.count_append, h3, List.count_cons]
      · simp [doneCalls, List.count_append, List.count_cons]
        omega
    · refine ⟨List.nodup_cons.mpr ⟨hk, h1⟩, ?_, ?_, ?_⟩
      · intro j
        simp only [List.count_append, h2 j, List.count_cons, List.count_nil]
        by_cases hj : k = j
        · subst hj
          simp
        · have hj2 : ¬ Event.finishedAdd k = Event.finishedAdd j := by
            intro hc
            exact hj (Event.finishedAdd.inj hc)
          simp [hj, hj2]
      · simp [doneCalls, List.count_append, h3, List.count_cons]
      · simp [doneCalls, List.count_append, List.count_cons]
        omega

theorem Tracked.after_process {s : State} (h : Tracked s) (d : Deps) (cfg : SearchEngineConfig)
    (dork : String) (resp : Except String Response) :
    Tracked (process d cfg dork resp s).1 := by
  obtain ⟨s1, hq, h1 | ⟨k, h1⟩⟩ := process_shape d cfg dork resp s
  · rw [h1]
    exact h.after_quiet hq
  · rw [h1]
    exact (h.after_quiet hq).after_complete k

theorem Tracked.after_run {s : State} (h : Tracked s) (d : Deps) (cfg : SearchEngineConfig)
    (items : List (String × Except String Response)) : Tracked (run d cfg items s) := by
  induction items generalizing s with
  | nil => exact h
  | cons it rest ih => exact ih (h.after_process d cfg it.1 it.2)

theorem Tracked.after_submit {s : State} (h : Tracked s) (cfg : SearchEngineConfig) (line : String) :
    Tracked (submit cfg s line) := by
  obtain ⟨h1, h2, h3, h4⟩ := h
  unfold doneCalls at h3 h4
  refine ⟨h1, ?_, ?_, ?_⟩
  · intro k
    simp [submit, State.sendDork, List.count_append, List.count_cons, h2 k]
  · simp [submit, State.sendDork, doneCalls, List.count_append, List.count_cons, h3]
  · simp [submit, State.sendDork, doneCalls, List.count_append, List.count_cons]
    exact h4

theorem Tracked.after_search {s : State} (h : Tracked s) (cfg : SearchEngineConfig)
    (lines : List String) : Tracked (Search cfg lines s) := by
  induction lines generalizing s with
  | nil => exact h
  | cons line rest ih => exact ih (h.after_submit cfg line)

theorem tracked_init : Tracked State.init :=
  ⟨List.nodup_nil, fun _ => rfl, rfl, Nat.le_refl _⟩

/-! ## Completion is signalled once per keyword -/

/-- A terminal page for a keyword that is already in the finished set: the pass
only sends. -/
theorem terminal_page_quiet (d : Deps) (cfg : SearchEngineConfig) (dork : String)
    (r : Response) (text : String) (u : URL) (s : State)
    (hk : d.Get u "q" ∈ s.FinishedDorkSet) (hb : r.Body = .ok text)
    (hu : d.Parse dork = .ok u) (hn : nextPageURLs d cfg u text = []) :
    Quiet s (process d cfg dork (.ok r) s).1 ∧ (process d cfg dork (.ok r) s).2 = Flow.loop := by
  unfold process
  simp only [hb]
  have hq := quiet_redirect r s
  rcases parsePage_cases d cfg dork text (redirect r s) with ⟨_, h⟩ | ⟨_, rs, h⟩
  · rw [h]
    exact ⟨hq.trans (quiet_withDorks _ _), rfl⟩
  · rcases h with ⟨⟨e, he⟩, _⟩ | ⟨v, hv, hne, _⟩ | ⟨v, hv, _, h⟩
    · rw [hu] at he
      cases he
    · rw [hu] at hv
      cases hv
      exact absurd hn hne
    · rw [hu] at hv
      cases hv
      rw [h]
      have hmem : d.Get u "q" ∈ (withResults (redirect r s) rs).FinishedDorkSet := by
        have h1 := (hq.trans (quiet_withResults _ rs)).1
        rw [h1]
        exact hk
      unfold complete
      rw [if_pos hmem]
      exact ⟨hq.trans (quiet_withResults _ rs), rfl⟩

/-- C2: in every sequence of targets a worker processes one at a time, starting
from the engine as `Search` left it, the completion branch fires at most once
for every keyword `k` (the set addition for `k` occurs at most once in the
history, and `Done` was called exactly once per keyword of the finished set);
and once `k` is in the finished set, a pass over a further terminal page of a
target whose keyword is `k` leaves the finished set, the counter of `dorkWg`,
the number of `Done` calls and the progress count unchanged and returns to the
head of the loop.  The keyword of a target is the one line 199 recovers, its
parameter `q`. -/
theorem completion_fires_at_most_once (d : Deps) (cfg : SearchEngineConfig)
    (lines : List String) (items : List (String × Except String Response)) (k : String) :
    (run d cfg items (Search cfg lines State.init)).log.count (Event.finishedAdd k) ≤ 1 ∧
    doneCalls (run d cfg items (Search cfg lines State.init)).log =
      (run d cfg items (Search cfg lines State.init)).FinishedDorkSet.length ∧
    (run d cfg items (Search cfg lines State.init)).FinishedDorkSet.Nodup ∧
    ∀ (s : State) (dork : String) (r : Response) (text : String) (u : URL),
      k ∈ s.FinishedDorkSet → r.Body = .ok text → d.Parse dork = .ok u → d.Get u "q" = k →
      nextPageURLs d cfg u text = [] →
        (process d cfg dork (.ok r) s).2 = Flow.loop ∧
        (process d cfg dork (.ok r) s).1.FinishedDorkSet = s.FinishedDorkSet ∧
        (process d cfg dork (.ok r) s).1.dorkWg = s.dorkWg ∧
        (process d cfg dork (.ok r) s).1.finished = s.finished ∧
        doneCalls (process d cfg dork (.ok r) s).1.log = doneCalls s.log ∧
        (process d cfg dork (.ok r) s).1.log.count (Event.finishedAdd k) =
          s.log.count (Event.finishedAdd k) := by
  have ht := ((tracked_init.after_search cfg lines).after_run d cfg items)
  obtain ⟨h1, h2, h3, _⟩ := ht
  refine ⟨?_, h3, h1, ?_⟩
  · rw [h2 k]
    exact List.nodup_iff_count_le_one.mp h1 k
  · intro s dork r text u hk hb hu hg hn
    subst hg
    obtain ⟨hq, hf⟩ := terminal_page_quiet d cfg dork r text u s hk hb hu hn
    exact ⟨hf, hq.1, hq.2.1, hq.2.2.2.1, hq.count Event.wgDone rfl,
      hq.count (Event.finishedAdd _) rfl⟩

/-- Three terminal pages for the keyword `a` of a Bing search, two of them for
the same seed target and one for a second page: completion fires once. -/
theorem completion_fires_at_most_once_witness :
    (run goDeps bingCfg
      [("https://www.bing.com/search?q=a", lastPage),
       ("https://www.bing.com/search?q=a", lastPage),
       ("https://www.bing.com/search?q=a&first=11", lastPage)]
      (Search bingCfg ["a"] State.init)).log.count (Event.finishedAdd "a") = 1 ∧
    "a" ∈ (run goDeps bingCfg [("https://www.bing.com/search?q=a", lastPage)]
        (Search bingCfg ["a"] State.init)).FinishedDorkSet ∧
    (process goDeps bingCfg "https://www.bing.com/search?q=a&first=11" lastPage
      (run goDeps bingCfg [("https://www.bing.com/search?q=a", lastPage)]
        (Search bingCfg ["a"] State.init))).1.dorkWg =
      (run goDeps bingCfg [("https://www.bing.com/search?q=a", lastPage)]
        (Search bingCfg ["a"] State.init)).dorkWg :=
  ⟨by decide, by decide,
   ((completion_fires_at_most_once goDeps bingCfg ["a"] [] "a").2.2.2
      (run goDeps bingCfg [("https://www.bing.com/search?q=a", lastPage)]
        (Search bingCfg ["a"] State.init))
      "https://www.bing.com/search?q=a&first=11"
      ⟨200, "", .ok "<html><body>no more results</body></html>"⟩
      "<html><body>no more results</body></html>"
      ⟨"https", "", "www.bing.com", "/search", "q=a&first=11"⟩
      (by decide) rfl rfl rfl rfl).2.2.1⟩

/-! ## The counter of `dorkWg` along a pass -/

/-- What the completion branch does to the counter and to the calls counted. -/
theorem complete_effect (k : String) (s : State) :
    addCalls (complete k s).1.log = addCalls s.log ∧
    (complete k s).1.dorkWg + doneCalls (complete k s).1.log = s.dorkWg + doneCalls s.log ∧
    (s.dorkWg ≤ 0 → (complete k s).2 ≠ Flow.panicked → (complete k s).1.dorkWg = s.dorkWg) ∧
    resultSends (complete k s).1.log = resultSends s.log := by
  unfold complete
  split
  · simp
  · split
    · rename_i hz
      refine ⟨?_, ?_, ?_, ?_⟩
      · simp [addCalls, List.count_append, List.count_cons]
      · simp [doneCalls, List.count_append, List.count_cons]
      · intro _ hne
        exact absurd rfl hne
      · simp [resultSends_append, resultSends]
    · rename_i hz
      refine ⟨?_, ?_, ?_, ?_⟩
      · simp [addCalls, List.count_append, List.count_cons]
      · simp [doneCalls, List.count_append, List.count_cons]
      · intro h0 _
        exact absurd h0 hz
      · simp [resultSends_append, resultSends]

/-- What a pass does to the counter and to the calls counted: no `Add`, the
counter and the `Done` calls move together, and at counter zero a pass that
does not panic leaves the counter at zero. -/
theorem process_effect (d : Deps) (cfg : SearchEngineConfig) (dork : String)
    (resp : Except String Response) (s : State) :
    addCalls (process d cfg dork resp s).1.log = addCalls s.log ∧
    (process d cfg dork resp s).1.dorkWg + doneCalls (process d cfg dork resp s).1.log =
      s.dorkWg + doneCalls s.log ∧
    (s.dorkWg ≤ 0 → (process d cfg dork resp s).2 ≠ Flow.panicked →
      (process d cfg dork resp s).1.dorkWg = s.dorkWg) := by
  obtain ⟨s1, hq, h1 | ⟨k, h1⟩⟩ := process_shape d cfg dork resp s
  · rw [h1]
    refine ⟨hq.count Event.wgAdd rfl, ?_, fun _ _ => hq.2.1⟩
    unfold doneCalls
    rw [hq.count Event.wgDone rfl, hq.2.1]
  · rw [h1]
    obtain ⟨c1, c2, c3, _⟩ := complete_effect k s1
    refine ⟨?_, ?_, ?_⟩
    · rw [c1]
      exact hq.count Event.wgAdd rfl
    · rw [c2, hq.2.1]
      unfold doneCalls
      rw [hq.count Event.wgDone rfl]
    · intro h0 hne
      rw [c3 (by rw [hq.2.1]; exact h0) hne, hq.2.1]

/-! ## Invariants of the running engine -/

theorem countP_set {α : Type} (p : α → Bool) (ws : List α) (i : Nat) (old new : α)
    (h : ws.get? i = some old) :
    (ws.set i new).countP p + (if p old then 1 else 0) =
      ws.countP p + (if p new then 1 else 0) := by
  induction ws generalizing i with
  | nil => simp at h
  | cons w ws ih =>
    cases i with
    | zero =>
      simp only [List.get?_cons_zero, Option.some.injEq] at h
      subst h
      simp only [List.set_cons_zero, List.countP_cons]
      omega
    | succ i =>
      simp only [List.get?_cons_succ] at h
      have := ih i h
      simp only [List.set_cons_succ, List.countP_cons]
      omega

theorem mem_of_get? {α : Type} (ws : List α) (i : Nat) (a : α) (h : ws.get? i = some a) :
    a ∈ ws := by
  induction ws generalizing i with
  | nil => simp at h
  | cons w ws ih =>
    cases i with
    | zero =>
      simp only [List.get?_cons_zero, Option.some.injEq] at h
      subst h
      exact List.mem_cons_self _ _
    | succ i =>
      simp only [List.get?_cons_succ] at h
      exact List.mem_cons_of_mem _ (ih i h)

theorem mem_set_of_ne {α : Type} (ws : List α) (i : Nat) (a old new : α)
    (h : ws.get? i = some old) (hne : old ≠ a) (ha : a ∈ ws) : a ∈ ws.set i new := by
  induction ws generalizing i with
  | nil => simp at h
  | cons w ws ih =>
    cases i with
    | zero =>
      simp only [List.get?_cons_zero, Option.some.injEq] at h
      subst h
      rcases List.mem_cons.mp ha with h1 | h1
      · exact absurd h1.symm hne
      · exact List.mem_cons_of_mem _ h1
    | succ i =>
      simp only [List.get?_cons_succ] at h
      rcases List.mem_cons.mp ha with h1 | h1
      · subst h1
        exact List.mem_cons_self _ _
      · exact List.mem_cons_of_mem _ (ih i h h1)

theorem nonStopped_eq_zero (ws : List Worker) :
    nonStopped ws = 0 ↔ ∀ w ∈ ws, w = Worker.stopped := by
  unfold nonStopped
  rw [List.countP_eq_zero]
  constructor
  · intro h w hw
    have := h w hw
    simpa using this
  · intro h w hw
    simp [h w hw]

/-- A worker that is not stopped keeps the count positive. -/
theorem nonStopped_pos (ws : List Worker) (i : Nat) (w : Worker) (h : ws.get? i = some w)
    (hw : w ≠ Worker.stopped) : 0 < nonStopped ws := by
  rcases Nat.eq_zero_or_pos (nonStopped ws) with h0 | h0
  · exact absurd ((nonStopped_eq_zero ws).mp h0 w (mem_of_get? ws i w h)) hw
  · exact h0

/-- Replacing a worker that is not stopped by one that is not stopped either. -/
theorem nonStopped_set_same (ws : List Worker) (i : Nat) (old new : Worker)
    (h : ws.get? i = some old) (ho : old ≠ Worker.stopped) (hn : new ≠ Worker.stopped) :
    nonStopped (ws.set i new) = nonStopped ws := by
  have := countP_set (fun w => w != Worker.stopped) ws i old new h
  simp only [bne_iff_ne, ne_eq, ho, hn, not_false_eq_true, if_true] at this
  unfold nonStopped
  omega

/-- A worker that stops. -/
theorem nonStopped_set_stopped (ws : List Worker) (i : Nat) (old : Worker)
    (h : ws.get? i = some old) (ho : old ≠ Worker.stopped) :
    nonStopped (ws.set i Worker.stopped) + 1 = nonStopped ws := by
  have := countP_set (fun w => w != Worker.stopped) ws i old Worker.stopped h
  simp only [bne_iff_ne, ne_eq, ho, not_false_eq_true, if_true, not_true_eq_false,
    if_false] at this
  unfold nonStopped
  omega

theorem nonStopped_replicate_idle (n : Nat) :
    nonStopped (List.replicate n Worker.idle) = n := by
  induction n with
  | zero => rfl
  | succ n ih =>
    simp only [List.replicate_succ, nonStopped, List.countP_cons] at ih ⊢
    rw [ih]
    rfl

theorem inv_init (n : Nat) (lines : List String) : Inv lines.length (Sys.init n lines) where
  wg := by simp [Sys.init, nonStopped_replicate_idle]
  late := by simp [Sys.init, phase]
  closed := by simp [Sys.init]
  adds := by simp [Sys.init, State.init, addCalls, remaining]
  bal := by simp [Sys.init, State.init, addCalls, doneCalls]
  zero := by simp [Sys.init, phase]

/-- Every step keeps the invariant. -/
theorem step_keeps_inv (d : Deps) (cfg : SearchEngineConfig) (total : Nat) (x y : Sys)
    (l : Label) (hinv : Inv total x) (h : step d cfg x l = some y) : Inv total y := by
  unfold step at h
  split at h
  · cases h
  · rename_i hc
    simp only [Bool.not_eq_true] at hc
    cases l with
    | submit =>
      simp only at h
      split at h
      · rename_i line rest hm
        cases h
        have ha := hinv.adds
        have hb := hinv.bal
        rw [hm] at ha
        simp only [remaining, List.length_cons] at ha
        refine ⟨hinv.wg, ?_, ?_, ?_, ?_, ?_⟩
        · simp [phase]
        · intro hcl
          have := hinv.closed hcl
          rw [hm] at this
          simp [phase] at this
        · simp only [submit, State.sendDork, addCalls, List.count_append, List.count_cons,
            remaining] at ha ⊢
          simp
          omega
        · simp only [submit, State.sendDork, addCalls, doneCalls, List.count_append,
            List.count_cons] at hb ⊢
          simp
          omega
        · simp [phase]
      · cases h
    | latchZero =>
      simp only at h
      split at h
      · rename_i hg
        cases h
        have ha := hinv.adds
        rw [hg.1] at ha
        refine ⟨hinv.wg, ?_, ?_, ?_, hinv.bal, ?_⟩
        · simp [phase]
        · intro hcl
          have := hinv.closed hcl
          rw [hg.1] at this
          simp [phase] at this
        · simpa [remaining] using ha
        · intro _ _
          exact hg.2
      · cases h
    | cancel =>
      simp only at h
      split at h
      · rename_i hg
        cases h
        have ha := hinv.adds
        have hz := hinv.zero
        rw [hg] at ha hz
        refine ⟨hinv.wg, ?_, ?_, ?_, hinv.bal, ?_⟩
        · simp [phase]
        · intro hcl
          have := hinv.closed hcl
          rw [hg] at this
          simp [phase] at this
        · simpa [remaining] using ha
        · intro _ hcr
          exact hz (by simp [phase]) hcr
      · cases h
    | workersDone =>
      simp only at h
      split at h
      · rename_i hg
        cases h
        have ha := hinv.adds
        have hz := hinv.zero
        have hw := hinv.wg
        rw [hg.1] at ha hz
        rw [hg.2] at hw
        refine ⟨hinv.wg, ?_, ?_, ?_, hinv.bal, ?_⟩
        · intro _
          exact_mod_cast hw.symm
        · intro hcl
          have := hinv.closed hcl
          rw [hg.1] at this
          simp [phase] at this
        · simpa [remaining] using ha
        · intro _ hcr
          exact hz (by simp [phase]) hcr
      · cases h
    | closeResult =>
      simp only at h
      split at h
      · rename_i hg
        cases h
        have ha := hinv.adds
        have hz := hinv.zero
        have hl := hinv.late
        rw [hg] at ha hz hl
        refine ⟨hinv.wg, ?_, ?_, ?_, hinv.bal, ?_⟩
        · intro _
          exact hl (by simp [phase])
        · intro _
          simp [phase]
        · simpa [remaining] using ha
        · intro _ hcr
          exact hz (by simp [phase]) hcr
      · cases h
    | sinkDone =>
      simp only at h
      split at h
      · rename_i hg
        cases h
        have ha := hinv.adds
        have hz := hinv.zero
        have hl := hinv.late
        rw [hg.1] at ha hz hl
        refine ⟨hinv.wg, ?_, ?_, ?_, hinv.bal, ?_⟩
        · intro _
          exact hl (by simp [phase])
        · intro _
          simp [phase]
        · simpa [remaining] using ha
        · intro _ hcr
          exact hz (by simp [phase]) hcr
      · cases h
    | receive w =>
      simp only at h
      split at h
      · rename_i dork queue hw hq
        cases h
        have hl := hinv.late
        refine ⟨?_, ?_, hinv.closed, hinv.adds, hinv.bal, hinv.zero⟩
        · simp only
          rw [nonStopped_set_same x.workers w Worker.idle (Worker.busy dork) hw (by simp)
            (by simp)]
          exact hinv.wg
        · intro h3
          have := nonStopped_pos x.workers w Worker.idle hw (by simp)
          have := hl h3
          omega
      · cases h
    | pass w resp =>
      simp only at h
      split at h
      · rename_i dork hw
        have hl := hinv.late
        have hpos := nonStopped_pos x.workers w (Worker.busy dork) hw (by simp)
        obtain ⟨e1, e2, e3⟩ := process_effect d cfg dork resp x.st
        have hlate : ∀ (m : Main), m = x.main → 3 ≤ phase m → False := by
          intro m hm h3
          subst hm
          have := hl h3
          omega
        rcases hp : process d cfg dork resp x.st with ⟨s1, fl⟩
        rw [hp] at h e1 e2 e3
        simp only at e1 e2 e3
        cases fl with
        | loop =>
          simp only at h
          cases h
          refine ⟨?_, ?_, hinv.closed, ?_, ?_, ?_⟩
          · simp only
            rw [nonStopped_set_same x.workers w (Worker.busy dork) Worker.idle hw (by simp)
              (by simp)]
            exact hinv.wg
          · intro h3
            exact absurd h3 (fun h3 => hlate _ rfl h3)
          · simp only
            rw [e1]
            exact hinv.adds
          · simp only
            rw [e2, e1]
            exact hinv.bal
          · intro h1 hcr
            have hz := hinv.zero h1 hc
            simp only
            rw [e3 (by omega) (by simp)]
            exact hz
        | returned =>
          simp only at h
          cases h
          refine ⟨?_, ?_, hinv.closed, ?_, ?_, ?_⟩
          · simp only
            rw [nonStopped_set_same x.workers w (Worker.busy dork) Worker.gone hw (by simp)
              (by simp)]
            exact hinv.wg
          · intro h3
            exact absurd h3 (fun h3 => hlate _ rfl h3)
          · simp only
            rw [e1]
            exact hinv.adds
          · simp only
            rw [e2, e1]
            exact hinv.bal
          · intro h1 hcr
            have hz := hinv.zero h1 hc
            simp only
            rw [e3 (by omega) (by simp)]
            exact hz
        | panicked =>
          simp only at h
          cases h
          refine ⟨?_, ?_, hinv.closed, ?_, ?_, ?_⟩
          · simp only
            rw [nonStopped_set_same x.workers w (Worker.busy dork) Worker.gone hw (by simp)
              (by simp)]
            exact hinv.wg
          · intro h3
            exact absurd h3 (fun h3 => hlate _ rfl h3)
          · simp only
            rw [e1]
            exact hinv.adds
          · simp only
            rw [e2, e1]
            exact hinv.bal
          · intro _ hcr
            simp at hcr
      · cases h
    | seeCancel w =>
      simp only at h
      split at h
      · rename_i hw
        split at h
        · cases h
          have hl := hinv.late
          refine ⟨?_, ?_, hinv.closed, hinv.adds, hinv.bal, hinv.zero⟩
          · simp only
            rw [nonStopped_set_same x.workers w Worker.idle Worker.leaving hw (by simp)
              (by simp)]
            exact hinv.wg
          · intro h3
            have := nonStopped_pos x.workers w Worker.idle hw (by simp)
            have := hl h3
            omega
        · cases h
      · cases h
    | ack w =>
      simp only at h
      split at h
      · rename_i hw
        cases h
        have hl := hinv.late
        have hwg := hinv.wg
        have hs := nonStopped_set_stopped x.workers w Worker.leaving hw (by simp)
        refine ⟨?_, ?_, hinv.closed, hinv.adds, hinv.bal, hinv.zero⟩
        · simp only
          rw [hwg]
          omega
        · intro h3
          have := nonStopped_pos x.workers w Worker.leaving hw (by simp)
          have := hl h3
          omega
      · cases h
    | sinkTake =>
      simp only at h
      split at h
      · split at h
        · cases h
        · cases h
          exact ⟨hinv.wg, hinv.late, hinv.closed, hinv.adds, hinv.bal, hinv.zero⟩
      · cases h
    | sinkExit =>
      simp only at h
      split at h
      · cases h
        exact ⟨hinv.wg, hinv.late, hinv.closed, hinv.adds, hinv.bal, hinv.zero⟩
      · cases h

/-! ## Runs -/

theorem exec_append (d : Deps) (cfg : SearchEngineConfig) (x : Sys) (a b : List Label) :
    exec d cfg x (a ++ b) = (exec d cfg x a).bind (fun y => exec d cfg y b) := by
  induction a generalizing x with
  | nil => rfl
  | cons l ls ih =>
    simp only [List.cons_append, exec]
    cases step d cfg x l with
    | none => rfl
    | some y => exact ih y

theorem exec_keeps_inv (d : Deps) (cfg : SearchEngineConfig) (total : Nat) (x y : Sys)
    (ls : List Label) (hinv : Inv total x) (h : exec d cfg x ls = some y) : Inv total y := by
  induction ls generalizing x with
  | nil =>
    simp only [exec, Option.some.injEq] at h
    subst h
    exact hinv
  | cons l ls ih =>
    simp only [exec] at h
    rcases hs : step d cfg x l with _ | z
    · rw [hs] at h
      cases h
    · rw [hs] at h
      exact ih z (step_keeps_inv d cfg total x z l hinv hs) h

theorem drop_take_succ {α : Type} (L : List α) (i n : Nat) (a : α) (h : L.get? i = some a) :
    (L.drop i).take (n + 1) = a :: (L.drop (i + 1)).take n := by
  induction L generalizing i with
  | nil => simp at h
  | cons b L ih =>
    cases i with
    | zero =>
      simp only [List.get?_cons_zero, Option.some.injEq] at h
      subst h
      simp
    | succ i =>
      simp only [List.get?_cons_succ] at h
      simpa using ih i h

/-- A worker that is gone stays gone. -/
theorem step_keeps_gone (d : Deps) (cfg : SearchEngineConfig) (x y : Sys) (l : Label)
    (hg : Worker.gone ∈ x.workers) (h : step d cfg x l = some y) : Worker.gone ∈ y.workers := by
  unfold step at h
  split at h
  · cases h
  · cases l with
    | receive w =>
      simp only at h
      split at h
      · rename_i hw _
        cases h
        exact mem_set_of_ne _ _ _ _ _ hw (by simp) hg
      · cases h
    | pass w resp =>
      simp only at h
      split at h
      · rename_i hw
        split at h <;> cases h <;> exact mem_set_of_ne _ _ _ _ _ hw (by simp) hg
      · cases h
    | seeCancel w =>
      simp only at h
      split at h
      · rename_i hw
        split at h
        · cases h
          exact mem_set_of_ne _ _ _ _ _ hw (by simp) hg
        · cases h
      · cases h
    | ack w =>
      simp only at h
      split at h
      · rename_i hw
        cases h
        exact mem_set_of_ne _ _ _ _ _ hw (by simp) hg
      · cases h
    | submit =>
      simp only at h
      (repeat' split at h) <;> first | (cases h; exact hg) | cases h
    | latchZero =>
      simp only at h
      (repeat' split at h) <;> first | (cases h; exact hg) | cases h
    | cancel =>
      simp only at h
      (repeat' split at h) <;> first | (cases h; exact hg) | cases h
    | workersDone =>
      simp only at h
      (repeat' split at h) <;> first | (cases h; exact hg) | cases h
    | closeResult =>
      simp only at h
      (repeat' split at h) <;> first | (cases h; exact hg) | cases h
    | sinkDone =>
      simp only at h
      (repeat' split at h) <;> first | (cases h; exact hg) | cases h
    | sinkTake =>
      simp only at h
      (repeat' split at h) <;> first | (cases h; exact hg) | cases h
    | sinkExit =>
      simp only at h
      (repeat' split at h) <;> first | (cases h; exact hg) | cases h

theorem exec_keeps_gone (d : Deps) (cfg : SearchEngineConfig) (x y : Sys) (ls : List Label)
    (hg : Worker.gone ∈ x.workers) (h : exec d cfg x ls = some y) : Worker.gone ∈ y.workers := by
  induction ls generalizing x with
  | nil =>
    simp only [exec, Option.some.injEq] at h
    subst h
    exact hg
  | cons l ls ih =>
    simp only [exec] at h
    rcases hs : step d cfg x l with _ | z
    · rw [hs] at h
      cases h
    · rw [hs] at h
      exact ih z (step_keeps_gone d cfg x z l hg hs) h

/-- While a worker is gone, `fetcherWg` is positive and `wait` is not past
`fetcherWg.Wait()`. -/
theorem gone_blocks_wait (total : Nat) (x : Sys) (hinv : Inv total x)
    (hg : Worker.gone ∈ x.workers) : 0 < x.fetcherWg ∧ phase x.main ≤ 2 := by
  have hpos : 0 < nonStopped x.workers := by
    rcases Nat.eq_zero_or_pos (nonStopped x.workers) with h0 | h0
    · have := (nonStopped_eq_zero x.workers).mp h0 _ hg
      cases this
    · exact h0
  constructor
  · rw [hinv.wg]
    exact_mod_cast hpos
  · by_contra hc
    have := hinv.late (by omega)
    omega

/-! ## A target that does not parse -/

/-- C7, the code at the failing input: for the keyword line `a<TAB>b` the seed
does not parse; the pass over its page ends with the `return` of line 197, the
worker is gone without `fetcherWg.Done()` and `fetcherWg` stays at one.  In
general a pass over a readable page without soft-failure marker for a target
that does not parse never goes back to the head of the loop, and in every run,
once a worker is gone, it stays gone, `fetcherWg` stays positive and `wait`
never gets past `fetcherWg.Wait()`. -/
theorem parse_error_ends_worker_without_ack :
    goDeps.Parse "https://www.bing.com/search?q=a\tb" =
      .error "net/url: invalid control character in URL" ∧
    (process goDeps bingCfg "https://www.bing.com/search?q=a\tb" lastPage State.init).2 =
      Flow.returned ∧
    (∃ x, exec goDeps bingCfg (Sys.init 1 [tabLine])
        [Label.submit, Label.receive 0, Label.pass 0 lastPage] = some x ∧
      x.workers = [Worker.gone] ∧ x.fetcherWg = 1 ∧ x.crashed = false ∧ x.st.dorkCh = []) ∧
    (∀ (d : Deps) (cfg : SearchEngineConfig) (dork : String) (r : Response) (text : String)
        (s : State) (e : String),
      r.Body = .ok text → softFailure text = false → d.Parse dork = .error e →
        (process d cfg dork (.ok r) s).2 ≠ Flow.loop) ∧
    (∀ (d : Deps) (cfg : SearchEngineConfig) (n : Nat) (lines : List String)
        (labels : List Label) (x : Sys),
      exec d cfg (Sys.init n lines) labels = some x → Worker.gone ∈ x.workers →
        ∀ (more : List Label) (y : Sys), exec d cfg x more = some y →
          Worker.gone ∈ y.workers ∧ 0 < y.fetcherWg ∧ phase y.main ≤ 2) := by
  refine ⟨rfl, rfl, ⟨_, rfl, rfl, rfl, rfl, rfl⟩, ?_, ?_⟩
  · intro d cfg dork r text s e hb hs he
    unfold process
    simp only [hb]
    rcases parsePage_cases d cfg dork text (redirect r s) with ⟨hs1, _⟩ | ⟨_, rs, h⟩
    · rw [hs] at hs1
      cases hs1
    · rcases h with ⟨_, h | h⟩ | ⟨u, hu, _⟩ | ⟨u, hu, _⟩
      · rw [h]
        simp
      · rw [h]
        simp
      · rw [he] at hu
        cases hu
      · rw [he] at hu
        cases hu
  · intro d cfg n lines labels x hx hg more y hy
    have hinv := exec_keeps_inv d cfg lines.length _ x labels (inv_init n lines) hx
    have hinvy := exec_keeps_inv d cfg lines.length x y more hinv hy
    have hgy := exec_keeps_gone d cfg x y more hg hy
    exact ⟨hgy, gone_blocks_wait lines.length y hinvy hgy⟩

/-! ## The Baidu template -/

/-- A single worker at an empty queue has nothing to do. -/
theorem drain_empty (d : Deps) (cfg : SearchEngineConfig)
    (web : String → Except String Response) (fuel : Nat) (s : State) (h : s.dorkCh = []) :
    drain d cfg web fuel s = (s, Flow.loop) := by
  cases fuel with
  | zero => rfl
  | succ n =>
    unfold drain
    rw [h]

/-- C1, the code at the failing input: with the Baidu template, where the keyword
travels in `wd`, and the two keywords `a` and `b`, each seed is fetched and is a
page without next-page link.  The work queue is then empty and `Add` was
called twice, but `Done` only once, for the keyword the worker recovers from
`q`, the empty string: the counter of `dorkWg` is one, however long the worker
goes on, and in the running engine no step at all is enabled any more, so
`dorkWg.Wait()` never returns. -/
theorem baidu_counter_never_reaches_zero :
    (∀ fuel,
      (drain goDeps baiduCfg (fun _ => lastPage) (fuel + 2)
        (Search baiduCfg ["a", "b"] State.init)).1 = baiduStuck.st) ∧
    baiduStuck.st.dorkCh = [] ∧ baiduStuck.st.dorkWg = 1 ∧
    addCalls baiduStuck.st.log = 2 ∧ doneCalls baiduStuck.st.log = 1 ∧
    baiduStuck.st.FinishedDorkSet = [""] ∧
    exec goDeps baiduCfg (Sys.init 1 ["a", "b"]) baiduRun = some baiduStuck ∧
    ∀ l, step goDeps baiduCfg baiduStuck l = none := by
  refine ⟨?_, rfl, rfl, rfl, rfl, rfl, rfl, ?_⟩
  · intro fuel
    have h2 : drain goDeps baiduCfg (fun _ => lastPage) (fuel + 2)
          (Search baiduCfg ["a", "b"] State.init) =
        drain goDeps baiduCfg (fun _ => lastPage) fuel baiduStuck.st := rfl
    rw [h2, drain_empty _ _ _ _ _ rfl]
  · intro l
    cases l with
    | receive w =>
      unfold step
      simp only [baiduStuck]
      cases hw : [Worker.idle].get? w with
      | none => simp
      | some v => cases v <;> simp
    | pass w resp =>
      unfold step
      simp only [baiduStuck]
      cases w with
      | zero => simp
      | succ k => simp
    | seeCancel w =>
      unfold step
      simp only [baiduStuck]
      cases w with
      | zero => simp
      | succ k => simp
    | ack w =>
      unfold step
      simp only [baiduStuck]
      cases w with
      | zero => simp
      | succ k => simp
    | submit => rfl
    | latchZero => rfl
    | cancel => rfl
    | workersDone => rfl
    | closeResult => rfl
    | sinkDone => rfl
    | sinkTake => rfl
    | sinkExit => rfl

/-! ## The calls of a pass and the pass as a whole -/

/-- Sends performed one after the other. -/
theorem runOps_sendDorks (ts : List String) (rest : List Op) (s : State) :
    runOps (ts.map Op.sendDork ++ rest) s = runOps rest (ts.foldl State.sendDork s) := by
  induction ts generalizing s with
  | nil => rfl
  | cons t ts ih =>
    simp only [List.map_cons, List.cons_append, runOps, perform, List.foldl_cons]
    exact ih (s.sendDork t)

/-- The calls of the result loop are the sends of `emitResults`. -/
theorem runOps_resultOps (d : Deps) (dork : String) (links : List String) (rest : List Op)
    (s : State) :
    (resultOps d dork links).2 = (emitResults d dork links s).2 ∧
    runOps ((resultOps d dork links).1 ++ rest) s =
      runOps rest (emitResults d dork links s).1 := by
  induction links generalizing s with
  | nil => exact ⟨rfl, rfl⟩
  | cons link links ih =>
    unfold resultOps emitResults
    rcases d.CheckRedirect link with e | urlString
    · exact ih s
    · rcases d.Parse dork with e | queryCore
      · exact ⟨rfl, rfl⟩
      · simp only [List.cons_append, runOps, perform]
        exact ih (s.sendResult ⟨resultKeyword d queryCore, urlString⟩)

/-- The completion branch, call by call, is `complete`. -/
theorem runOps_complete (k : String) (s : State) :
    runOps [Op.contains k, Op.setAdd k, Op.wgDone, Op.addFinished] s = complete k s := by
  unfold complete
  by_cases hk : k ∈ s.FinishedDorkSet
  · simp [runOps, perform, hk]
  · by_cases hz : s.dorkWg ≤ 0
    · simp [runOps, perform, hk, hz]
    · simp [runOps, perform, hk, hz]

/-- The calls of a pass, performed with no other goroutine in between, are the
pass. -/
theorem runOps_plan (d : Deps) (cfg : SearchEngineConfig) (dork : String)
    (resp : Except String Response) (s : State) :
    runOps (plan d cfg dork resp) s = process d cfg dork resp s := by
  unfold plan process
  rcases resp with e | r
  · rfl
  · simp only
    have hred : ∀ rest : List Op,
        runOps ((if r.StatusCode > 300 ∧ r.StatusCode < 400 then [Op.sendDork r.Location]
          else []) ++ rest) s = runOps rest (redirect r s) := by
      intro rest
      unfold redirect
      by_cases h : r.StatusCode > 300 ∧ r.StatusCode < 400
      · simp only [h, and_self, if_true, List.cons_append, List.nil_append, runOps, perform]
      · simp only [h, if_false, List.nil_append]
    rw [hred]
    rcases r.Body with e | text
    · rfl
    · simp only
      unfold pageOps parsePage
      by_cases h1 : Contains text "window.location.href" = true
      · simp [h1, runOps, perform]
      · by_cases h2 : Contains text "网络不给力，请稍后重试" = true
        · simp [h1, h2, runOps, perform]
        · simp only [h1, h2, if_false, Bool.false_eq_true]
          rcases hro : resultOps d dork (d.FindAll atagRe text) with ⟨ops, b⟩
          rcases hem : emitResults d dork (d.FindAll atagRe text) (redirect r s) with ⟨s1, b1⟩
          have hb : b = b1 := by
            have := (runOps_resultOps d dork (d.FindAll atagRe text) [] (redirect r s)).1
            rw [hro, hem] at this
            exact this
          subst hb
          cases b with
          | true =>
            simp only
            have := (runOps_resultOps d dork (d.FindAll atagRe text) [Op.nilDeref]
              (redirect r s)).2
            rw [hro, hem] at this
            rw [this]
            rfl
          | false =>
            simp only
            have := (runOps_resultOps d dork (d.FindAll atagRe text)
              (paginateOps d cfg dork text) (redirect r s)).2
            rw [hro, hem] at this
            rw [this]
            unfold paginateOps paginate
            rcases d.Parse dork with e | u
            · rfl
            · simp only
              by_cases hn : (nextPageURLs d cfg u text).length > 0
              · simp only [hn, if_true]
                have := runOps_sendDorks (nextPageURLs d cfg u text) [] s1
                simp only [List.append_nil] at this
                rw [this]
                rfl
              · simp only [hn, if_false]
                exact runOps_complete _ s1

/-- What one call does to the counter, to the calls counted and to the result
queue. -/
theorem perform_effect (o : Op) (s : State) :
    addCalls (perform o s).1.log = addCalls s.log ∧
    (perform o s).1.dorkWg + doneCalls (perform o s).1.log = s.dorkWg + doneCalls s.log ∧
    (s.dorkWg ≤ 0 → (perform o s).2 ≠ Ctl.panicked → (perform o s).1.dorkWg = s.dorkWg) ∧
    (perform o s).1.resultCh = s.resultCh ++ o.results ∧
    resultSends (perform o s).1.log = resultSends s.log ++ o.results := by
  cases o with
  | sendDork t =>
    simp [perform, State.sendDork, addCalls, doneCalls, List.count_append, List.count_cons,
      Op.results, resultSends_append, resultSends]
  | sendResult r =>
    simp [perform, State.sendResult, addCalls, doneCalls, List.count_append, List.count_cons,
      Op.results, resultSends_append, resultSends]
  | contains k =>
    simp [perform, Op.results]
  | setAdd k =>
    simp [perform, addCalls, doneCalls, List.count_append, List.count_cons,
      Op.results, resultSends_append, resultSends]
  | wgDone =>
    refine ⟨?_, ?_, ?_, ?_, ?_⟩
    · simp [perform, addCalls, List.count_append, List.count_cons]
    · simp [perform, doneCalls, List.count_append, List.count_cons]
    · intro h0 hne
      simp [perform, h0] at hne
    · simp [perform, Op.results]
    · simp [perform, Op.results, resultSends_append, resultSends]
  | addFinished =>
    simp [perform, addCalls, doneCalls, List.count_append, List.count_cons,
      Op.results, resultSends_append, resultSends]
  | ret => simp [perform, Op.results]
  | nilDeref => simp [perform, Op.results]

/-! ## Invariants of the engine, call by call -/

theorem notStopped_eq_zero (ws : List WorkerPc) :
    notStopped ws = 0 ↔ ∀ w ∈ ws, w = WorkerPc.stopped := by
  unfold notStopped
  rw [List.countP_eq_zero]
  constructor
  · intro h w hw
    have := h w hw
    simpa using this
  · intro h w hw
    simp [h w hw]

theorem notStopped_pos (ws : List WorkerPc) (i : Nat) (w : WorkerPc)
    (h : ws.get? i = some w) (hw : w ≠ WorkerPc.stopped) : 0 < notStopped ws := by
  rcases Nat.eq_zero_or_pos (notStopped ws) with h0 | h0
  · exact absurd ((notStopped_eq_zero ws).mp h0 w (mem_of_get? ws i w h)) hw
  · exact h0

theorem notStopped_set_same (ws : List WorkerPc) (i : Nat) (old new : WorkerPc)
    (h : ws.get? i = some old) (ho : old ≠ WorkerPc.stopped) (hn : new ≠ WorkerPc.stopped) :
    notStopped (ws.set i new) = notStopped ws := by
  have := countP_set (fun w => w != WorkerPc.stopped) ws i old new h
  simp only [bne_iff_ne, ne_eq, ho, hn, not_false_eq_true, if_true] at this
  unfold notStopped
  omega

theorem notStopped_set_stopped (ws : List WorkerPc) (i : Nat) (old : WorkerPc)
    (h : ws.get? i = some old) (ho : old ≠ WorkerPc.stopped) :
    notStopped (ws.set i WorkerPc.stopped) + 1 = notStopped ws := by
  have := countP_set (fun w => w != WorkerPc.stopped) ws i old WorkerPc.stopped h
  simp only [bne_iff_ne, ne_eq, ho, not_false_eq_true, if_true, not_true_eq_false,
    if_false] at this
  unfold notStopped
  omega

theorem notStopped_replicate_idle (n : Nat) :
    notStopped (List.replicate n WorkerPc.idle) = n := by
  induction n with
  | zero => rfl
  | succ n ih =>
    simp only [List.replicate_succ, notStopped, List.countP_cons] at ih ⊢
    rw [ih]
    rfl

theorem afterOps_ne_stopped (ops : List Op) : afterOps ops ≠ WorkerPc.stopped := by
  cases ops <;> simp [afterOps]

theorem safe_init (n : Nat) (lines : List String) : Safe lines.length (Engine.init n lines) where
  wg := by simp [Engine.init, notStopped_replicate_idle]
  late := by simp [Engine.init, stage]
  closed := by simp [Engine.init]
  cancelled := by simp [Engine.init]
  adds := by simp [Engine.init, State.init, addCalls, pendingAdds]
  bal := by simp [Engine.init, State.init, addCalls, doneCalls]
  zero := by simp [Engine.init, stage]
  sinkWg := by simp [Engine.init]
  sinkOut := by simp [Engine.init]
  conserve := by simp [Engine.init, State.init, resultSends]

/-- While some worker has not stopped, `wait` is not past `fetcherWg.Wait()`, the
result queue is open and the sink is in its loop. -/
theorem safe_early (total : Nat) (x : Engine) (hs : Safe total x) (i : Nat) (w : WorkerPc)
    (h : x.workers.get? i = some w) (hw : w ≠ WorkerPc.stopped) :
    stage x.main < 3 ∧ x.closed = false ∧ x.sink = SinkPc.ranging := by
  have hpos := notStopped_pos x.workers i w h hw
  have h3 : stage x.main < 3 := by
    by_contra hc
    have := hs.late (by omega)
    omega
  have hcl : x.closed = false := by
    cases hc : x.closed with
    | false => rfl
    | true =>
      have := hs.closed hc
      omega
  refine ⟨h3, hcl, ?_⟩
  by_contra hk
  have := (hs.sinkOut hk).1
  rw [hcl] at this
  cases this

/-- Every call keeps the invariant. -/
theorem act_keeps_safe (d : Deps) (cfg : SearchEngineConfig) (total : Nat) (x y : Engine)
    (a : Action) (hs : Safe total x) (h : act d cfg x a = some y) : Safe total y := by
  unfold act at h
  split at h
  · cases h
  · rename_i hc
    simp only [Bool.not_eq_true] at hc
    cases a with
    | send =>
      simp only at h
      split at h
      · rename_i line rest hm
        split at h
        · cases h
          have ha := hs.adds
          have hb := hs.bal
          have hcn := hs.conserve
          rw [hm] at ha
          simp only [pendingAdds, List.length_cons] at ha
          refine ⟨hs.wg, by simp [stage], ?_, ?_, ?_, ?_, by simp [stage], hs.sinkWg, hs.sinkOut,
            ?_⟩
          · intro hcl
            have := hs.closed hcl
            rw [hm] at this
            simp [stage] at this
          · intro hcl
            have := hs.cancelled hcl
            rw [hm] at this
            simp [stage] at this
          · simp only [State.sendDork, addCalls, List.count_append, List.count_cons,
              pendingAdds] at ha ⊢
            simp
            omega
          · simp only [State.sendDork, addCalls, doneCalls, List.count_append,
              List.count_cons] at hb ⊢
            simp
            omega
          · simp only [State.sendDork, resultSends_append, resultSends, List.append_nil]
            exact hcn
        · cases h
      · cases h
    | add =>
      simp only at h
      split at h
      · rename_i rest hm
        cases h
        have ha := hs.adds
        have hb := hs.bal
        have hcn := hs.conserve
        rw [hm] at ha
        simp only [pendingAdds] at ha
        refine ⟨hs.wg, by simp [stage], ?_, ?_, ?_, ?_, by simp [stage], hs.sinkWg, hs.sinkOut,
          ?_⟩
        · intro hcl
          have := hs.closed hcl
          rw [hm] at this
          simp [stage] at this
        · intro hcl
          have := hs.cancelled hcl
          rw [hm] at this
          simp [stage] at this
        · simp only [addCalls, List.count_append, List.count_cons, pendingAdds] at ha ⊢
          simp
          omega
        · simp only [addCalls, doneCalls, List.count_append, List.count_cons] at hb ⊢
          simp
          omega
        · simp only [resultSends_append, resultSends, List.append_nil]
          exact hcn
      · cases h
    | addTotal =>
      simp only at h
      split at h
      · rename_i rest hm
        cases h
        have ha := hs.adds
        have hb := hs.bal
        have hcn := hs.conserve
        rw [hm] at ha
        simp only [pendingAdds] at ha
        refine ⟨hs.wg, by simp [stage], ?_, ?_, ?_, ?_, by simp [stage], hs.sinkWg, hs.sinkOut,
          ?_⟩
        · intro hcl
          have := hs.closed hcl
          rw [hm] at this
          simp [stage] at this
        · intro hcl
          have := hs.cancelled hcl
          rw [hm] at this
          simp [stage] at this
        · simp only [addCalls, List.count_append, List.count_cons, pendingAdds] at ha ⊢
          simp
          omega
        · simp only [addCalls, doneCalls, List.count_append, List.count_cons] at hb ⊢
          simp
          omega
        · simp only [resultSends_append, resultSends, List.append_nil]
          exact hcn
      · cases h
    | latchZero =>
      simp only at h
      split at h
      · rename_i hg
        cases h
        have ha := hs.adds
        rw [hg.1] at ha
        refine ⟨hs.wg, by simp [stage], ?_, ?_, ?_, hs.bal, ?_, hs.sinkWg, hs.sinkOut,
          hs.conserve⟩
        · intro hcl
          have := hs.closed hcl
          rw [hg.1] at this
          simp [stage] at this
        · intro hcl
          have := hs.cancelled hcl
          rw [hg.1] at this
          simp [stage] at this
        · simpa [pendingAdds] using ha
        · intro _ _
          exact hg.2
      · cases h
    | cancel =>
      simp only at h
      split at h
      · rename_i hg
        cases h
        have ha := hs.adds
        have hz := hs.zero
        rw [hg] at ha hz
        refine ⟨hs.wg, by simp [stage], ?_, by simp [stage], ?_, hs.bal, ?_, hs.sinkWg,
          hs.sinkOut, hs.conserve⟩
        · intro hcl
          have := hs.closed hcl
          rw [hg] at this
          simp [stage] at this
        · simpa [pendingAdds] using ha
        · intro _ hcr
          exact hz (by simp [stage]) hcr
      · cases h
    | workersDone =>
      simp only at h
      split at h
      · rename_i hg
        cases h
        have ha := hs.adds
        have hz := hs.zero
        have hw := hs.wg
        rw [hg.1] at ha hz
        rw [hg.2] at hw
        refine ⟨hs.wg, ?_, ?_, by simp [stage], ?_, hs.bal, ?_, hs.sinkWg, hs.sinkOut,
          hs.conserve⟩
        · intro _
          exact_mod_cast hw.symm
        · intro hcl
          have := hs.closed hcl
          rw [hg.1] at this
          simp [stage] at this
        · simpa [pendingAdds] using ha
        · intro _ hcr
          exact hz (by simp [stage]) hcr
      · cases h
    | closeResult =>
      simp only at h
      split at h
      · rename_i hg
        cases h
        have ha := hs.adds
        have hz := hs.zero
        have hl := hs.late
        have hso := hs.sinkOut
        rw [hg] at ha hz hl
        refine ⟨hs.wg, ?_, by simp [stage], by simp [stage], ?_, hs.bal, ?_, hs.sinkWg, ?_,
          hs.conserve⟩
        · intro _
          exact hl (by simp [stage])
        · simpa [pendingAdds] using ha
        · intro _ hcr
          exact hz (by simp [stage]) hcr
        · intro hk
          exact ⟨rfl, (hso hk).2⟩
      · cases h
    | sinkDone =>
      simp only at h
      split at h
      · rename_i hg
        cases h
        have ha := hs.adds
        have hz := hs.zero
        have hl := hs.late
        rw [hg.1] at ha hz hl
        refine ⟨hs.wg, ?_, by simp [stage], by simp [stage], ?_, hs.bal, ?_, hs.sinkWg,
          hs.sinkOut, hs.conserve⟩
        · intro _
          exact hl (by simp [stage])
        · simpa [pendingAdds] using ha
        · intro _ hcr
          exact hz (by simp [stage]) hcr
      · cases h
    | receive w =>
      simp only at h
      split at h
      · rename_i dork queue hw hq
        cases h
        obtain ⟨e3, _, _⟩ := safe_early total x hs w _ hw (by simp)
        refine ⟨?_, ?_, hs.closed, hs.cancelled, hs.adds, hs.bal, hs.zero, hs.sinkWg,
          hs.sinkOut, hs.conserve⟩
        · simp only
          rw [notStopped_set_same x.workers w WorkerPc.idle (WorkerPc.busy dork) hw (by simp)
            (by simp)]
          exact hs.wg
        · intro h3
          simp only at h3
          omega
      · cases h
    | fetch w resp =>
      simp only at h
      split at h
      · rename_i dork hw
        cases h
        obtain ⟨e3, _, _⟩ := safe_early total x hs w _ hw (by simp)
        refine ⟨?_, ?_, hs.closed, hs.cancelled, hs.adds, hs.bal, hs.zero, hs.sinkWg,
          hs.sinkOut, hs.conserve⟩
        · simp only
          rw [notStopped_set_same x.workers w (WorkerPc.busy dork) _ hw (by simp)
            (afterOps_ne_stopped _)]
          exact hs.wg
        · intro h3
          simp only at h3
          omega
      · cases h
    | op w =>
      simp only at h
      split at h
      · rename_i o rest hw
        obtain ⟨e3, ecl, esk⟩ := safe_early total x hs w _ hw (by simp)
        split at h
        · cases h
          refine ⟨?_, ?_, hs.closed, hs.cancelled, hs.adds, hs.bal, ?_, hs.sinkWg, hs.sinkOut,
            hs.conserve⟩
          · simp only
            rw [notStopped_set_same x.workers w _ WorkerPc.gone hw (by simp) (by simp)]
            exact hs.wg
          · intro h3
            simp only at h3
            omega
          · intro _ hcr
            simp at hcr
        · split at h
          · cases h
          · obtain ⟨p1, p2, p3, p4, p5⟩ := perform_effect o x.st
            have hcn := hs.conserve
            have hsk : ∀ (s1 : State), (perform o x.st).1 = s1 →
                x.sink ≠ SinkPc.ranging → x.closed = true ∧ s1.resultCh = [] := by
              intro s1 _ hk
              exact absurd esk hk
            have hcv : ∀ (s1 : State), (perform o x.st).1 = s1 →
                x.received ++ s1.resultCh = resultSends s1.log := by
              intro s1 h1
              rw [← h1, p4, p5, ← List.append_assoc, hcn]
            rcases hp : perform o x.st with ⟨s1, c⟩
            rw [hp] at h p1 p2 p3
            simp only at p1 p2 p3
            have hsk1 := hsk s1 (by rw [hp])
            have hcv1 := hcv s1 (by rw [hp])
            cases c with
            | next =>
              simp only at h
              cases h
              refine ⟨?_, ?_, hs.closed, hs.cancelled, ?_, ?_, ?_, hs.sinkWg, hsk1, hcv1⟩
              · simp only
                rw [notStopped_set_same x.workers w _ _ hw (by simp) (afterOps_ne_stopped _)]
                exact hs.wg
              · intro h3
                simp only at h3
                omega
              · simp only
                rw [p1]
                exact hs.adds
              · simp only
                rw [p2, p1]
                exact hs.bal
              · intro h1 _
                have hz := hs.zero h1 hc
                simp only
                rw [p3 (by omega) (by simp)]
                exact hz
            | loop =>
              simp only at h
              cases h
              refine ⟨?_, ?_, hs.closed, hs.cancelled, ?_, ?_, ?_, hs.sinkWg, hsk1, hcv1⟩
              · simp only
                rw [notStopped_set_same x.workers w _ WorkerPc.idle hw (by simp) (by simp)]
                exact hs.wg
              · intro h3
                simp only at h3
                omega
              · simp only
                rw [p1]
                exact hs.adds
              · simp only
                rw [p2, p1]
                exact hs.bal
              · intro h1 _
                have hz := hs.zero h1 hc
                simp only
                rw [p3 (by omega) (by simp)]
                exact hz
            | returned =>
              simp only at h
              cases h
              refine ⟨?_, ?_, hs.closed, hs.cancelled, ?_, ?_, ?_, hs.sinkWg, hsk1, hcv1⟩
              · simp only
                rw [notStopped_set_same x.workers w _ WorkerPc.gone hw (by simp) (by simp)]
                exact hs.wg
              · intro h3
                simp only at h3
                omega
              · simp only
                rw [p1]
                exact hs.adds
              · simp only
                rw [p2, p1]
                exact hs.bal
              · intro h1 _
                have hz := hs.zero h1 hc
                simp only
                rw [p3 (by omega) (by simp)]
                exact hz
            | panicked =>
              simp only at h
              cases h
              refine ⟨?_, ?_, hs.closed, hs.cancelled, ?_, ?_, ?_, hs.sinkWg, hsk1, hcv1⟩
              · simp only
                rw [notStopped_set_same x.workers w _ WorkerPc.gone hw (by simp) (by simp)]
                exact hs.wg
              · intro h3
                simp only at h3
                omega
              · simp only
                rw [p1]
                exact hs.adds
              · simp only
                rw [p2, p1]
                exact hs.bal
              · intro _ hcr
                simp at hcr
      · cases h
    | seeCancel w =>
      simp only at h
      split at h
      · rename_i hw
        split at h
        · cases h
          obtain ⟨e3, _, _⟩ := safe_early total x hs w _ hw (by simp)
          refine ⟨?_, ?_, hs.closed, hs.cancelled, hs.adds, hs.bal, hs.zero, hs.sinkWg,
            hs.sinkOut, hs.conserve⟩
          · simp only
            rw [notStopped_set_same x.workers w WorkerPc.idle WorkerPc.leaving hw (by simp)
              (by simp)]
            exact hs.wg
          · intro h3
            simp only at h3
            omega
        · cases h
      · cases h
    | ack w =>
      simp only at h
      split at h
      · rename_i hw
        cases h
        obtain ⟨e3, _, _⟩ := safe_early total x hs w _ hw (by simp)
        have hwg := hs.wg
        have hst := notStopped_set_stopped x.workers w WorkerPc.leaving hw (by simp)
        refine ⟨?_, ?_, hs.closed, hs.cancelled, hs.adds, hs.bal, hs.zero, hs.sinkWg,
          hs.sinkOut, hs.conserve⟩
        · simp only
          rw [hwg]
          omega
        · intro h3
          simp only at h3
          omega
      · cases h
    | sinkTake =>
      simp only at h
      split at h
      · rename_i r queue hsk hq
        cases h
        have hcn := hs.conserve
        rw [hq] at hcn
        refine ⟨hs.wg, hs.late, hs.closed, hs.cancelled, hs.adds, hs.bal, hs.zero, hs.sinkWg,
          ?_, ?_⟩
        · intro hk
          exact absurd hsk hk
        · simp only
          rw [← hcn]
          simp
      · cases h
    | sinkLeave =>
      simp only at h
      split at h
      · rename_i hg
        cases h
        have hw := hs.sinkWg
        rw [hg.1] at hw
        refine ⟨hs.wg, hs.late, hs.closed, hs.cancelled, hs.adds, hs.bal, hs.zero, ?_, ?_,
          hs.conserve⟩
        · simpa using hw
        · intro _
          exact ⟨hg.2.2, hg.2.1⟩
      · cases h
    | sinkAck =>
      simp only at h
      split at h
      · rename_i hg
        cases h
        have hw := hs.sinkWg
        have ho := hs.sinkOut
        rw [hg] at hw ho
        refine ⟨hs.wg, hs.late, hs.closed, hs.cancelled, hs.adds, hs.bal, hs.zero, ?_, ?_,
          hs.conserve⟩
        · simp only [if_true]
          simp only [reduceCtorEq, if_false] at hw
          omega
        · intro _
          exact ho (by simp)
      · cases h

/-! ## Runs, call by call -/

theorem runs_append (d : Deps) (cfg : SearchEngineConfig) (x : Engine) (a b : List Action) :
    runs d cfg x (a ++ b) = (runs d cfg x a).bind (fun y => runs d cfg y b) := by
  induction a generalizing x with
  | nil => rfl
  | cons l ls ih =>
    simp only [List.cons_append, runs]
    cases act d cfg x l with
    | none => rfl
    | some y => exact ih y

/-- A run that contains a step splits at that step. -/
theorem runs_split (d : Deps) (cfg : SearchEngineConfig) (x z : Engine)
    (pre post : List Action) (a : Action) (h : runs d cfg x (pre ++ a :: post) = some z) :
    ∃ y y1, runs d cfg x pre = some y ∧ act d cfg y a = some y1 ∧
      runs d cfg y1 post = some z := by
  rw [runs_append] at h
  rcases hy : runs d cfg x pre with _ | y
  · rw [hy] at h
    cases h
  · rw [hy] at h
    simp only [Option.bind, runs] at h
    rcases hs : act d cfg y a with _ | y1
    · rw [hs] at h
      cases h
    · rw [hs] at h
      exact ⟨y, y1, rfl, hs, h⟩

theorem runs_keep_safe (d : Deps) (cfg : SearchEngineConfig) (total : Nat) (x y : Engine)
    (as : List Action) (hs : Safe total x) (h : runs d cfg x as = some y) : Safe total y := by
  induction as generalizing x with
  | nil =>
    simp only [runs, Option.some.injEq] at h
    subst h
    exact hs
  | cons a as ih =>
    simp only [runs] at h
    rcases ha : act d cfg x a with _ | z
    · rw [ha] at h
      cases h
    · rw [ha] at h
      exact ih z (act_keeps_safe d cfg total x z a hs ha) h

/-- A step of `wait` is the one its position calls for and moves `wait` on by one;
no other step moves it. -/
theorem act_stage (d : Deps) (cfg : SearchEngineConfig) (x y : Engine) (a : Action)
    (h : act d cfg x a = some y) :
    (a.isWait = true →
      waitOrder.get? (stage x.main) = some a ∧ stage y.main = stage x.main + 1) ∧
    (a.isWait = false → stage y.main = stage x.main) := by
  unfold act at h
  split at h
  · cases h
  · cases a with
    | send =>
      simp only at h
      split at h
      · rename_i hm
        split at h
        · cases h
          simp [Action.isWait, stage, hm]
        · cases h
      · cases h
    | add =>
      simp only at h
      split at h
      · rename_i hm
        cases h
        simp [Action.isWait, stage, hm]
      · cases h
    | addTotal =>
      simp only at h
      split at h
      · rename_i hm
        cases h
        simp [Action.isWait, stage, hm]
      · cases h
    | latchZero =>
      simp only at h
      split at h
      · rename_i hg
        cases h
        simp [Action.isWait, stage, hg.1, waitOrder]
      · cases h
    | cancel =>
      simp only at h
      split at h
      · rename_i hg
        cases h
        simp [Action.isWait, stage, hg, waitOrder]
      · cases h
    | workersDone =>
      simp only at h
      split at h
      · rename_i hg
        cases h
        simp [Action.isWait, stage, hg.1, waitOrder]
      · cases h
    | closeResult =>
      simp only at h
      split at h
      · rename_i hg
        cases h
        simp [Action.isWait, stage, hg, waitOrder]
      · cases h
    | sinkDone =>
      simp only at h
      split at h
      · rename_i hg
        cases h
        simp [Action.isWait, stage, hg.1, waitOrder]
      · cases h
    | receive w =>
      simp only at h
      (repeat' split at h) <;> first | (cases h; simp [Action.isWait]) | cases h
    | fetch w resp =>
      simp only at h
      (repeat' split at h) <;> first | (cases h; simp [Action.isWait]) | cases h
    | op w =>
      simp only at h
      (repeat' split at h) <;> first | (cases h; simp [Action.isWait]) | cases h
    | seeCancel w =>
      simp only at h
      (repeat' split at h) <;> first | (cases h; simp [Action.isWait]) | cases h
    | ack w =>
      simp only at h
      (repeat' split at h) <;> first | (cases h; simp [Action.isWait]) | cases h
    | sinkTake =>
      simp only at h
      (repeat' split at h) <;> first | (cases h; simp [Action.isWait]) | cases h
    | sinkLeave =>
      simp only at h
      (repeat' split at h) <;> first | (cases h; simp [Action.isWait]) | cases h
    | sinkAck =>
      simp only at h
      (repeat' split at h) <;> first | (cases h; simp [Action.isWait]) | cases h

/-- The steps of `wait` taken along a run are those between the position at the
start and the position at the end, in the order of `wait`. -/
theorem runs_stage (d : Deps) (cfg : SearchEngineConfig) (x y : Engine) (as : List Action)
    (h : runs d cfg x as = some y) :
    stage x.main ≤ stage y.main ∧
    as.filter Action.isWait =
      (waitOrder.drop (stage x.main)).take (stage y.main - stage x.main) := by
  induction as generalizing x with
  | nil =>
    simp only [runs, Option.some.injEq] at h
    subst h
    simp
  | cons a as ih =>
    simp only [runs] at h
    rcases ha : act d cfg x a with _ | z
    · rw [ha] at h
      cases h
    · rw [ha] at h
      obtain ⟨h1, h2⟩ := ih z h
      obtain ⟨p1, p2⟩ := act_stage d cfg x z a ha
      cases hl : a.isWait with
      | true =>
        obtain ⟨q1, q2⟩ := p1 hl
        refine ⟨by omega, ?_⟩
        rw [List.filter_cons_of_pos hl, h2, q2]
        have hn : stage y.main - stage x.main = (stage y.main - (stage x.main + 1)) + 1 := by
          omega
        rw [hn, drop_take_succ waitOrder (stage x.main) _ a q1]
      | false =>
        have q := p2 hl
        refine ⟨by omega, ?_⟩
        rw [List.filter_cons_of_neg (by simp [hl]), h2, q]

/-- The number of workers never changes. -/
theorem act_workers_length (d : Deps) (cfg : SearchEngineConfig) (x y : Engine) (a : Action)
    (h : act d cfg x a = some y) : y.workers.length = x.workers.length := by
  unfold act at h
  split at h
  · cases h
  · cases a <;> simp only at h <;> (repeat' split at h) <;> cases h <;> simp

theorem runs_workers_length (d : Deps) (cfg : SearchEngineConfig) (x y : Engine)
    (as : List Action) (h : runs d cfg x as = some y) :
    y.workers.length = x.workers.length := by
  induction as generalizing x with
  | nil =>
    simp only [runs, Option.some.injEq] at h
    subst h
    rfl
  | cons a as ih =>
    simp only [runs] at h
    rcases ha : act d cfg x a with _ | z
    · rw [ha] at h
      cases h
    · rw [ha] at h
      rw [ih z h, act_workers_length d cfg x z a ha]

/-- Once every worker has stopped, a step is not a step of a worker and leaves
the history of result sends as it is. -/
theorem act_all_stopped (d : Deps) (cfg : SearchEngineConfig) (x y : Engine) (a : Action)
    (hall : ∀ w ∈ x.workers, w = WorkerPc.stopped) (h3 : 3 ≤ stage x.main)
    (h : act d cfg x a = some y) :
    a.isWorker = false ∧ resultSends y.st.log = resultSends x.st.log := by
  unfold act at h
  split at h
  · cases h
  · cases a with
    | send =>
      simp only at h
      split at h
      · rename_i hm
        rw [hm] at h3
        simp [stage] at h3
      · cases h
    | add =>
      simp only at h
      split at h
      · rename_i hm
        rw [hm] at h3
        simp [stage] at h3
      · cases h
    | addTotal =>
      simp only at h
      split at h
      · rename_i hm
        rw [hm] at h3
        simp [stage] at h3
      · cases h
    | receive w =>
      simp only at h
      split at h
      · rename_i hw _
        have := hall _ (mem_of_get? _ _ _ hw)
        cases this
      · cases h
    | fetch w resp =>
      simp only at h
      split at h
      · rename_i hw
        have := hall _ (mem_of_get? _ _ _ hw)
        cases this
      · cases h
    | op w =>
      simp only at h
      split at h
      · rename_i hw
        have := hall _ (mem_of_get? _ _ _ hw)
        cases this
      · cases h
    | seeCancel w =>
      simp only at h
      split at h
      · rename_i hw
        have := hall _ (mem_of_get? _ _ _ hw)
        cases this
      · cases h
    | ack w =>
      simp only at h
      split at h
      · rename_i hw
        have := hall _ (mem_of_get? _ _ _ hw)
        cases this
      · cases h
    | latchZero =>
      simp only at h
      (repeat' split at h) <;> first | (cases h; exact ⟨rfl, rfl⟩) | cases h
    | cancel =>
      simp only at h
      (repeat' split at h) <;> first | (cases h; exact ⟨rfl, rfl⟩) | cases h
    | workersDone =>
      simp only at h
      (repeat' split at h) <;> first | (cases h; exact ⟨rfl, rfl⟩) | cases h
    | closeResult =>
      simp only at h
      (repeat' split at h) <;> first | (cases h; exact ⟨rfl, rfl⟩) | cases h
    | sinkDone =>
      simp only at h
      (repeat' split at h) <;> first | (cases h; exact ⟨rfl, rfl⟩) | cases h
    | sinkTake =>
      simp only at h
      (repeat' split at h) <;> first | (cases h; exact ⟨rfl, rfl⟩) | cases h
    | sinkLeave =>
      simp only at h
      (repeat' split at h) <;> first | (cases h; exact ⟨rfl, rfl⟩) | cases h
    | sinkAck =>
      simp only at h
      (repeat' split at h) <;> first | (cases h; exact ⟨rfl, rfl⟩) | cases h

/-- Once `wait` is past `fetcherWg.Wait()` no worker takes a step and nothing is
sent on the result queue any more. -/
theorem no_worker_call_late (d : Deps) (cfg : SearchEngineConfig) (total : Nat)
    (x y : Engine) (as : List Action) (hs : Safe total x) (h3 : 3 ≤ stage x.main)
    (h : runs d cfg x as = some y) :
    (∀ a ∈ as, a.isWorker = false) ∧ resultSends y.st.log = resultSends x.st.log := by
  induction as generalizing x with
  | nil =>
    simp only [runs, Option.some.injEq] at h
    subst h
    simp
  | cons a as ih =>
    simp only [runs] at h
    rcases ha : act d cfg x a with _ | z
    · rw [ha] at h
      cases h
    · rw [ha] at h
      have hz := act_keeps_safe d cfg total x z a hs ha
      have hst := act_stage d cfg x z a ha
      have hz3 : 3 ≤ stage z.main := by
        cases hl : a.isWait with
        | true => have := (hst.1 hl).2; omega
        | false => have := hst.2 hl; omega
      obtain ⟨i1, i2⟩ := ih z hz hz3 h
      have key := act_all_stopped d cfg x z a ((notStopped_eq_zero x.workers).mp (hs.late h3))
        h3 ha
      refine ⟨?_, by rw [i2, key.2]⟩
      intro a1 ha1
      rcases List.mem_cons.mp ha1 with h1 | h1
      · rw [h1]
        exact key.1
      · exact i1 a1 h1

/-- From `cancel` on the cancellation signal stays fired. -/
theorem act_keeps_fired (d : Deps) (cfg : SearchEngineConfig) (x y : Engine) (a : Action)
    (hf : 2 ≤ stage x.main → x.cancelled = true) (h : act d cfg x a = some y) :
    2 ≤ stage y.main → y.cancelled = true := by
  unfold act at h
  split at h
  · cases h
  · cases a with
    | send =>
      simp only at h
      (repeat' split at h) <;> first | (cases h; simp [stage]) | cases h
    | add =>
      simp only at h
      (repeat' split at h) <;> first | (cases h; simp [stage]) | cases h
    | addTotal =>
      simp only at h
      (repeat' split at h) <;> first | (cases h; simp [stage]) | cases h
    | latchZero =>
      simp only at h
      (repeat' split at h) <;> first | (cases h; simp [stage]) | cases h
    | cancel =>
      simp only at h
      (repeat' split at h) <;> first | (cases h; simp [stage]) | cases h
    | workersDone =>
      simp only at h
      split at h
      · rename_i hg
        cases h
        intro _
        exact hf (by rw [hg.1]; simp [stage])
      · cases h
    | closeResult =>
      simp only at h
      split at h
      · rename_i hg
        cases h
        intro _
        exact hf (by rw [hg]; simp [stage])
      · cases h
    | sinkDone =>
      simp only at h
      split at h
      · rename_i hg
        cases h
        intro _
        exact hf (by rw [hg.1]; simp [stage])
      · cases h
    | receive w =>
      simp only at h
      (repeat' split at h) <;> first | (cases h; exact hf) | cases h
    | fetch w resp =>
      simp only at h
      (repeat' split at h) <;> first | (cases h; exact hf) | cases h
    | op w =>
      simp only at h
      (repeat' split at h) <;> first | (cases h; exact hf) | cases h
    | seeCancel w =>
      simp only at h
      (repeat' split at h) <;> first | (cases h; exact hf) | cases h
    | ack w =>
      simp only at h
      (repeat' split at h) <;> first | (cases h; exact hf) | cases h
    | sinkTake =>
      simp only at h
      (repeat' split at h) <;> first | (cases h; exact hf) | cases h
    | sinkLeave =>
      simp only at h
      (repeat' split at h) <;> first | (cases h; exact hf) | cases h
    | sinkAck =>
      simp only at h
      (repeat' split at h) <;> first | (cases h; exact hf) | cases h

theorem runs_keep_fired (d : Deps) (cfg : SearchEngineConfig) (x y : Engine)
    (as : List Action) (hf : 2 ≤ stage x.main → x.cancelled = true)
    (h : runs d cfg x as = some y) : 2 ≤ stage y.main → y.cancelled = true := by
  induction as generalizing x with
  | nil =>
    simp only [runs, Option.some.injEq] at h
    subst h
    exact hf
  | cons a as ih =>
    simp only [runs] at h
    rcases ha : act d cfg x a with _ | z
    · rw [ha] at h
      cases h
    · rw [ha] at h
      exact ih z (act_keeps_fired d cfg x z a hf ha) h

/-! ## `wait` -/

/-- C3, as the code has it: in every run of the engine, taken call by call, the
steps of `wait` occur in the order latch at zero, cancel, workers
acknowledged, result queue closed, sink finished.  When the cancellation
signal is fired every line has been submitted and the counter of `dorkWg` is
zero, `Done` having been called as often as `Add`, once per line.  A worker
takes the cancellation arm of its `select` only after the signal was fired.
When the result queue is closed the signal has been fired, `fetcherWg` is zero
and every one of the `n` workers has stopped; after the close no worker takes
a step and nothing is sent on the result queue.  When `saverWg.Wait()` returns
the sink has left its loop and called `Done`, the result queue is closed and
empty, and the sink has received every result that was sent. -/
theorem wait_order_call_by_call (d : Deps) (cfg : SearchEngineConfig) (n : Nat)
    (lines : List String) (acts : List Action) (x : Engine)
    (h : runs d cfg (Engine.init n lines) acts = some x) :
    acts.filter Action.isWait = waitOrder.take (stage x.main) ∧
    acts.filter Action.isWait <+: waitOrder ∧
    (∀ pre post, acts = pre ++ Action.cancel :: post →
      ∃ y, runs d cfg (Engine.init n lines) pre = some y ∧ y.main = MainPc.atCancel ∧
        y.st.dorkWg = 0 ∧ addCalls y.st.log = lines.length ∧
        doneCalls y.st.log = lines.length) ∧
    (∀ pre post w, acts = pre ++ Action.seeCancel w :: post → Action.cancel ∈ pre) ∧
    (∀ pre post, acts = pre ++ Action.closeResult :: post →
      ∃ y, runs d cfg (Engine.init n lines) pre = some y ∧ y.main = MainPc.atClose ∧
        y.cancelled = true ∧ y.fetcherWg = 0 ∧ y.workers.length = n ∧
        (∀ w ∈ y.workers, w = WorkerPc.stopped) ∧
        (∀ a ∈ post, a.isWorker = false) ∧ resultSends x.st.log = resultSends y.st.log) ∧
    (∀ pre post, acts = pre ++ Action.sinkDone :: post →
      ∃ y, runs d cfg (Engine.init n lines) pre = some y ∧ y.main = MainPc.atSaverWait ∧
        y.saverWg = 0 ∧ y.sink = SinkPc.done ∧ y.closed = true ∧ y.st.resultCh = [] ∧
        y.received = resultSends y.st.log) := by
  have hst := runs_stage d cfg (Engine.init n lines) x acts h
  have h0 : stage (Engine.init n lines).main = 0 := rfl
  rw [h0] at hst
  simp only [List.drop_zero, Nat.sub_zero] at hst
  refine ⟨hst.2, ?_, ?_, ?_, ?_, ?_⟩
  · rw [hst.2]
    exact List.take_prefix _ _
  · intro pre post hl
    subst hl
    obtain ⟨y, y1, hy, ha, _⟩ := runs_split d cfg _ x pre post Action.cancel h
    have hs := runs_keep_safe d cfg lines.length _ y pre (safe_init n lines) hy
    have hen : y.crashed = false ∧ y.main = MainPc.atCancel := by
      unfold act at ha
      split at ha
      · cases ha
      · rename_i hc
        simp only at ha
        split at ha
        · rename_i hm
          exact ⟨by simpa using hc, hm⟩
        · cases ha
    have hz := hs.zero (by rw [hen.2]; simp [stage]) hen.1
    have hadd := hs.adds
    have hb := hs.bal
    rw [hen.2] at hadd
    simp only [pendingAdds, Nat.add_zero] at hadd
    refine ⟨y, hy, hen.2, hz, hadd, ?_⟩
    rw [hz, hadd] at hb
    omega
  · intro pre post w hl
    subst hl
    obtain ⟨y, y1, hy, ha, _⟩ := runs_split d cfg _ x pre post (Action.seeCancel w) h
    have hs := runs_keep_safe d cfg lines.length _ y pre (safe_init n lines) hy
    have hcan : y.cancelled = true := by
      unfold act at ha
      split at ha
      · cases ha
      · simp only at ha
        split at ha
        · split at ha
          · rename_i hcn
            exact hcn
          · cases ha
        · cases ha
    have h2 := hs.cancelled hcan
    have hpre := (runs_stage d cfg (Engine.init n lines) y pre hy).2
    rw [h0] at hpre
    simp only [List.drop_zero, Nat.sub_zero] at hpre
    have hmem : Action.cancel ∈ waitOrder.take (stage y.main) := by
      have h5 : stage y.main ≤ 5 := by cases y.main <;> simp [stage]
      interval_cases hk : stage y.main <;> simp [waitOrder]
    rw [← hpre] at hmem
    exact (List.mem_filter.mp hmem).1
  · intro pre post hl
    subst hl
    obtain ⟨y, y1, hy, ha, hpost⟩ := runs_split d cfg _ x pre post Action.closeResult h
    have hs := runs_keep_safe d cfg lines.length _ y pre (safe_init n lines) hy
    have hs1 := act_keeps_safe d cfg lines.length y y1 _ hs ha
    have hen : y.main = MainPc.atClose ∧ y1.st = y.st := by
      unfold act at ha
      split at ha
      · cases ha
      · simp only at ha
        split at ha
        · rename_i hm
          cases ha
          exact ⟨hm, rfl⟩
        · cases ha
    have h3 : 3 ≤ stage y.main := by rw [hen.1]; simp [stage]
    have hstop := hs.late h3
    have hp1 := (act_stage d cfg y y1 _ ha).1 rfl
    obtain ⟨k1, k2⟩ := no_worker_call_late d cfg lines.length y1 x post hs1 (by omega) hpost
    have hlen := runs_workers_length d cfg _ y pre hy
    have hfired := runs_keep_fired d cfg _ y pre (by simp [Engine.init, stage]) hy (by omega)
    refine ⟨y, hy, hen.1, hfired, ?_, ?_, (notStopped_eq_zero y.workers).mp hstop, k1, ?_⟩
    · rw [hs.wg, hstop]
      rfl
    · rw [hlen]
      simp [Engine.init]
    · rw [k2, hen.2]
  · intro pre post hl
    subst hl
    obtain ⟨y, y1, hy, ha, _⟩ := runs_split d cfg _ x pre post Action.sinkDone h
    have hs := runs_keep_safe d cfg lines.length _ y pre (safe_init n lines) hy
    have hen : y.main = MainPc.atSaverWait ∧ y.saverWg = 0 := by
      unfold act at ha
      split at ha
      · cases ha
      · simp only at ha
        split at ha
        · rename_i hg
          exact hg
        · cases ha
    have hdone : y.sink = SinkPc.done := by
      have hw := hs.sinkWg
      rw [hen.2] at hw
      by_contra hk
      simp [hk] at hw
    have hout := hs.sinkOut (by rw [hdone]; simp)
    have hcn := hs.conserve
    rw [hout.2, List.append_nil] at hcn
    exact ⟨y, hy, hen.1, hen.2, hdone, hout.1, hout.2, hcn⟩

/-- The complete example run is a run; it ends with `wait` returned and the one
result received by the sink. -/
theorem wait_order_call_by_call_witness :
    ∃ x, runs goDeps bingCfg (Engine.init 1 ["a"]) completeRun = some x ∧
      x.main = MainPc.returned ∧ x.received = [⟨"a", "http://r.com/1"⟩] ∧
      completeRun.filter Action.isWait = waitOrder.take (stage x.main) :=
  ⟨_, rfl, rfl, rfl, (wait_order_call_by_call goDeps bingCfg 1 ["a"] completeRun _ rfl).1⟩

set_option maxRecDepth 100000 in
/-- C3 fails as stated: the cancellation signal is fired while a submitted
keyword is not marked finished.  In `relatedRun` the latch reaches zero through
a last page of the related search `c`, and `wait` cancels while worker 0 still
holds the second page of the only submitted keyword `a`.  In `raceRun` two
workers both pass the `Contains` test for `a` and both call `Done`, so the
latch of the two keywords `a` and `b` reaches zero and `wait` cancels while
worker 2 still holds the seed of `b`. -/
theorem cancel_before_keyword_finished :
    (∃ x, runs goDeps bingCfg (Engine.init 2 ["a"]) relatedRun = some x ∧
      x.cancelled = true ∧ x.st.FinishedDorkSet = ["c"] ∧ "a" ∉ x.st.FinishedDorkSet ∧
      x.workers = [WorkerPc.busy "https://www.bing.com/search?q=a&first=11",
        WorkerPc.idle]) ∧
    (∃ z, runs goDeps bingCfg (Engine.init 3 ["a", "b"]) raceRun = some z ∧
      z.cancelled = true ∧ z.st.FinishedDorkSet = ["a"] ∧ "b" ∉ z.st.FinishedDorkSet ∧
      doneCalls z.st.log = 2 ∧
      z.workers.get? 2 = some (WorkerPc.busy "https://www.bing.com/search?q=b")) :=
  ⟨⟨_, rfl, rfl, rfl, by decide, rfl⟩, ⟨_, rfl, rfl, rfl, by decide, rfl, rfl⟩⟩

end searchengine
